import Mathlib

/-!
Shallow embedding of the TMSSR quality-check repository
(`streamlit_app.py` and `pages/학기초학기말비교.py`).

The embedding models:
* `parse_user_and_timestamp_from_filename` — filename → (user, timestamp),
  including the Korean AM/PM (오전/오후) 12-hour → 24-hour conversion and
  Python `datetime` range validation (failure is modelled as `none`, standing
  for a raised `ValueError`);
* `read_csv_with_encoding` — the encoding-fallback CSV loader, with a file
  modelled as a function from the encoding argument (`none` = no `encoding=`
  keyword, i.e. the platform-default final attempt) to a decode result;
* `CATEGORY_CANONICAL` / `CATEGORIES` and the per-file category/potential
  counting of `aggregate_folder`;
* the point-assignment step of `aggregate_folder` (stable sort by
  (user, timestamp, category), `drop_duplicates` keeping first occurrences,
  sort by (user, timestamp), `groupby("user").cumcount() + 1`, left-merge);
* the per-user comparison table built in `pages/학기초학기말비교.py`.

Modelling notes, recorded once here:
* Python regex `\d` / `\s` are modelled over their ASCII ranges (the only
  code points the filename grammar produces); `str.lower()` is modelled by
  `Char.toLower`, which agrees with Python on ASCII.
* pandas `sort_values` is modelled by a deterministic stable insertion sort.
  The claims proved below do not depend on how ties between equal sort keys
  are broken, so any deterministic comparison sort models the source.
* A raised exception is modelled by `Except.error` / `Option.none`.
-/

namespace TQC

/-- ASCII range of Python's `\s` regex class / `str.strip()` whitespace. -/
def isPySpace (c : Char) : Bool :=
  c = ' ' || c = '\t' || c = '\n' || c = '\r' || c = '\x0b' || c = '\x0c'

/-- Python `str.strip()` on a character list. -/
def stripList (l : List Char) : List Char :=
  ((l.dropWhile isPySpace).reverse.dropWhile isPySpace).reverse

/-- Decimal digit value of a character, `none` for non-digits (regex `\d`). -/
def digitVal? (c : Char) : Option Nat :=
  if 48 ≤ c.toNat ∧ c.toNat ≤ 57 then some (c.toNat - 48) else none

/-- The decimal digit character for a value `0 ≤ d ≤ 9`. -/
def digitChar : Nat → Char
  | 0 => '0'
  | 1 => '1'
  | 2 => '2'
  | 3 => '3'
  | 4 => '4'
  | 5 => '5'
  | 6 => '6'
  | 7 => '7'
  | 8 => '8'
  | 9 => '9'
  | _ => '*'

/-- Decimal representation of a natural number (most significant digit
first), as produced by Python's `str(n)` / `f"{n}"` for `n > 0`. -/
def natChars (n : Nat) : List Char :=
  ((Nat.digits 10 n).reverse).map digitChar

/-- Python `f"{n:02d}"` for `n ≤ 99`: exactly two decimal digits. -/
def pad2 (n : Nat) : List Char :=
  [digitChar (n / 10), digitChar (n % 10)]

/-- Longest digit prefix of a character list: the digit values (most
significant first) and the remaining characters. -/
def takeDigits : List Char → List Nat × List Char
  | [] => ([], [])
  | c :: r =>
    match digitVal? c with
    | some d => (d :: (takeDigits r).1, (takeDigits r).2)
    | none => ([], c :: r)

/-- Numeric value of a digit-value list (most significant first),
Python `int(...)` on the matched group. -/
def valDigits (l : List Nat) : Nat :=
  Nat.ofDigits 10 l.reverse

/-- Match a run of between `lo` and `hi` decimal digits followed by a
non-digit (or the end): regex `\d{lo,hi}` when the next pattern character
cannot match a digit, which is the case everywhere in the filename regex. -/
def takeNDigits (lo hi : Nat) (l : List Char) : Option (Nat × List Char) :=
  let p := takeDigits l
  if lo ≤ p.1.length ∧ p.1.length ≤ hi then some (valDigits p.1, p.2) else none

/-- Regex `\s*`. -/
def skipWs (l : List Char) : List Char :=
  l.dropWhile isPySpace

/-- Match one literal character. -/
def expectChar (c : Char) : List Char → Option (List Char)
  | [] => none
  | d :: r => if d = c then some r else none

/-- The Korean AM/PM marker of the filename grammar. -/
inductive Ampm where
  | am  -- 오전
  | pm  -- 오후
deriving DecidableEq, Repr

/-- Regex alternation `(오전|오후)`. -/
def matchAmpm : List Char → Option (Ampm × List Char)
  | '오' :: '전' :: r => some (.am, r)
  | '오' :: '후' :: r => some (.pm, r)
  | _ => none

/-- The anchored timestamp regex
`^(\d{4})\.\s*(\d{1,2})\.\s*(\d{1,2})\.\s*(오전|오후)\s*(\d{1,2})-(\d{2})-(\d{2})$`
of `parse_user_and_timestamp_from_filename`, as a deterministic matcher
(every alternation point of the regex distinguishes disjoint character
classes, so backtracking never changes the outcome). -/
def matchTimestamp (l : List Char) :
    Option (Nat × Nat × Nat × Ampm × Nat × Nat × Nat) := do
  let (y, r) ← takeNDigits 4 4 l
  let r ← expectChar '.' r
  let (mo, r) ← takeNDigits 1 2 (skipWs r)
  let r ← expectChar '.' r
  let (d, r) ← takeNDigits 1 2 (skipWs r)
  let r ← expectChar '.' r
  let (ap, r) ← matchAmpm (skipWs r)
  let (hh, r) ← takeNDigits 1 2 (skipWs r)
  let r ← expectChar '-' r
  let (mi, r) ← takeNDigits 2 2 r
  let r ← expectChar '-' r
  let (ss, r) ← takeNDigits 2 2 r
  if r = [] then some (y, mo, d, ap, hh, mi, ss) else none

/-- A second-precision wall-clock timestamp (Python `datetime.datetime`). -/
structure DateTime where
  year : Nat
  month : Nat
  day : Nat
  hour : Nat
  minute : Nat
  second : Nat
deriving DecidableEq, Repr

/-- Gregorian leap-year rule used by Python `datetime`. -/
def isLeapYear (y : Nat) : Bool :=
  y % 4 = 0 && (y % 100 != 0 || y % 400 = 0)

/-- Days in a month, as validated by the Python `datetime` constructor. -/
def daysInMonth (y m : Nat) : Nat :=
  if m = 2 then (if isLeapYear y then 29 else 28)
  else if m = 4 ∨ m = 6 ∨ m = 9 ∨ m = 11 then 30
  else 31

/-- The `datetime.datetime(...)` constructor: `some` on a valid calendar
date/time, `none` for the `ValueError` it raises otherwise. -/
def mkDatetime? (y mo d h mi s : Nat) : Option DateTime :=
  if 1 ≤ y ∧ y ≤ 9999 ∧ 1 ≤ mo ∧ mo ≤ 12 ∧ 1 ≤ d ∧ d ≤ daysInMonth y mo
      ∧ h ≤ 23 ∧ mi ≤ 59 ∧ s ≤ 59
  then some ⟨y, mo, d, h, mi, s⟩ else none

/-- The Korean AM/PM 12-hour → 24-hour conversion of
`parse_user_and_timestamp_from_filename` (both copies in the source):
```
if ampm == "오전": hour = 0 if hh == 12 else hh
else:              hour = 12 if hh == 12 else hh + 12
``` -/
def koreanAmPmHour (ap : Ampm) (hh : Nat) : Nat :=
  match ap with
  | .am => if hh = 12 then 0 else hh
  | .pm => if hh = 12 then 12 else hh + 12

/-- Scan a reversed character list for the reversed pattern `".csv"`; the
first hit corresponds to the last occurrence in the original list.  Returns
the (reversed) characters strictly before that occurrence. -/
def dropCsvSuffixRev : List Char → Option (List Char)
  | 'v' :: 's' :: 'c' :: '.' :: r => some r
  | _ :: r => dropCsvSuffixRev r
  | [] => none

/-- Python `base.rsplit(".csv", 1)[0]`: everything before the last
occurrence of `".csv"`, or the whole string when there is none. -/
def stripLastCsv (l : List Char) : List Char :=
  match dropCsvSuffixRev l.reverse with
  | some r => r.reverse
  | none => l

/-- Python `base.lower().endswith(".csv")` (`Char.toLower` agrees with
`str.lower` on ASCII): the last four lower-cased characters, read from the
end, are `v`, `s`, `c`, `.`. -/
def endsWithCsvLower (l : List Char) : Bool :=
  (l.map Char.toLower).reverse.take 4 == ['v', 's', 'c', '.']

/-- Python `stem.split("_", 1)`: split at the first underscore; `none` for
the `ValueError` raised when the result cannot be unpacked into two parts. -/
def splitFirstUnderscore : List Char → Option (List Char × List Char)
  | [] => none
  | c :: r =>
    if c = '_' then some ([], r)
    else
      match splitFirstUnderscore r with
      | some (a, b) => some (c :: a, b)
      | none => none

/-- `os.path.basename`: the part after the last path separator. -/
def basename (s : String) : String :=
  ⟨(s.data.reverse.takeWhile (fun c => c != '/')).reverse⟩

/-- `parse_user_and_timestamp_from_filename` (identical in
`streamlit_app.py` and `pages/학기초학기말비교.py`): `none` models every
raised exception (`ValueError` from the extension check, the split, the
regex mismatch, or the `datetime` constructor). -/
def parse_user_and_timestamp_from_filename (path : String) :
    Option (String × DateTime) :=
  let base := basename path
  if endsWithCsvLower base.data then
    match splitFirstUnderscore (stripLastCsv base.data) with
    | none => none
    | some (nameChars, rest) =>
      match matchTimestamp (stripList rest) with
      | none => none
      | some (y, mo, d, ap, hh, mi, ss) =>
        match mkDatetime? y mo d (koreanAmPmHour ap hh) mi ss with
        | none => none
        | some ts => some (⟨nameChars⟩, ts)
  else none

/-! ### Resilient CSV loader (`read_csv_with_encoding`) -/

/-- Outcomes of a `pd.read_csv` call: `unicodeDecodeError` is the one
exception class the fallback loop catches; every other raised exception
(`ParserError`, `EmptyDataError`, ...) is `otherError`, with a code
distinguishing distinct failures. -/
inductive PdError where
  | unicodeDecodeError
  | otherError (code : Nat)
deriving DecidableEq, Repr

/-- A successfully loaded table: column names and cell rows. -/
structure CsvFile where
  cols : List String
  cells : List (List String)
deriving DecidableEq, Repr

/-- A file on disk, observed through `pd.read_csv(path, encoding=enc)`:
the behaviour of each decode attempt, where the argument `none` stands for
the final call without an `encoding=` keyword (platform default). -/
def OnDiskFile := Option String → Except PdError CsvFile

/-- The encoding tuple `("utf-8-sig", "cp949", "utf-8")` of
`read_csv_with_encoding`. -/
def fallbackEncodings : List String := ["utf-8-sig", "cp949", "utf-8"]

/-- The `for enc in (...)` loop: only `UnicodeDecodeError` is caught and
makes the loop `continue`; any other exception propagates; after the loop
the final `pd.read_csv(path)` result is returned as-is. -/
def tryEncodings (f : OnDiskFile) : List String → Except PdError CsvFile
  | [] => f none
  | enc :: rest =>
    match f (some enc) with
    | .ok t => .ok t
    | .error .unicodeDecodeError => tryEncodings f rest
    | .error e => .error e

/-- `read_csv_with_encoding` (identical in both source files). -/
def read_csv_with_encoding (f : OnDiskFile) : Except PdError CsvFile :=
  tryEncodings f fallbackEncodings

/-! ### Category normalization and per-file counting -/

/-- `CATEGORY_CANONICAL` from `streamlit_app.py`, as an association list
with the source's key order. -/
def CATEGORY_CANONICAL : List (String × String) :=
  [("eliciting", "Eliciting"),
   ("responding", "Responding"),
   ("facilitating", "Facilitating"),
   ("faciliatating", "Facilitating"),
   ("extending", "Extending")]

/-- `CATEGORIES` from `streamlit_app.py`. -/
def CATEGORIES : List String :=
  ["Eliciting", "Responding", "Facilitating", "Extending"]

/-- Python `s.strip().lower()` (ASCII lower-casing). -/
def normKey (s : String) : String :=
  ⟨(stripList s.data).map Char.toLower⟩

/-- The mapping `lambda x: CATEGORY_CANONICAL.get(x, None)` applied after
`str(...).strip().lower()`. -/
def normCategory (s : String) : Option String :=
  (CATEGORY_CANONICAL.find? (fun p => p.1 == normKey s)).map (·.2)

/-- The header-location loop of `aggregate_folder`: the column whose
stripped lower-cased name equals `target`; the loop keeps overwriting, so
the last match wins. -/
def findCol (cols : List String) (target : String) : Option Nat :=
  ((cols.enum.filter (fun p => normKey p.2 == target)).getLast?).map (·.1)

/-- Cell of a row at a column index (missing cells read as empty text). -/
def cellAt (row : List String) (j : Nat) : String :=
  row.getD j ""

/-- One row of the long-form aggregate table.  Before the point merge the
source rows have no `point` column; the builder below fills `point := 0`
and the merge overwrites it. -/
structure AggRow where
  user : String
  ts : DateTime
  category : String
  low : Nat
  high : Nat
  file : String
  point : Nat
deriving DecidableEq, Repr

/-- The row the `for cat in CATEGORIES` loop appends for one category: the
rows matching the category (`mask_cat`), then the Low/High counts, which
are 0 when the mask is empty (`if mask_cat.any()`), and the counts of
normalized potential values otherwise. -/
def catRow (user : String) (ts : DateTime) (fname : String) (df : CsvFile)
    (ti pot : Nat) (cat : String) : AggRow :=
  let masked := df.cells.filter
    (fun row => normCategory (cellAt row ti) == some cat)
  { user := user, ts := ts, category := cat,
    low :=
      if masked.isEmpty then 0
      else masked.countP (fun row => normKey (cellAt row pot) == "low"),
    high :=
      if masked.isEmpty then 0
      else masked.countP (fun row => normKey (cellAt row pot) == "high"),
    file := fname, point := 0 }

/-- The per-file body of the `aggregate_folder` loop after a successful
read: locate the TMSSR/Potential columns (skip the file when either is
missing), then emit one row per canonical category. -/
def fileRows (user : String) (ts : DateTime) (fname : String)
    (df : CsvFile) : List AggRow :=
  match findCol df.cols "tmssr", findCol df.cols "potential" with
  | some ti, some pot => CATEGORIES.map (catRow user ts fname df ti pot)
  | _, _ => []

/-! ### Folder aggregation -/

/-- A directory entry: the name returned by `os.listdir` and the observable
decode behaviour of the file's bytes. -/
structure DirEntry where
  name : String
  read : OnDiskFile

/-- The listing filter `f.lower().endswith(".csv")`. -/
def csvName (s : String) : Bool :=
  endsWithCsvLower s.data

/-- Insert into a sorted list, before the first element `b` with `le a b`
(a stable insertion: an element is placed after earlier equal keys). -/
def ordIns (le : α → α → Bool) (a : α) : List α → List α
  | [] => [a]
  | b :: l => if le a b then a :: b :: l else b :: ordIns le a l

/-- Stable insertion sort, modelling Python `sorted` and pandas
`sort_values` (see the modelling notes at the top of the file). -/
def insSort (le : α → α → Bool) : List α → List α
  | [] => []
  | a :: l => ordIns le a (insSort le l)

/-- Sortedness for a boolean comparison. -/
def SortedB (le : α → α → Bool) : List α → Prop :=
  List.Pairwise (fun a b => le a b = true)

/-- Lexicographic comparison of key sequences (shorter-prefix-first), the
order Python uses element-wise for strings and tuples. -/
def natListLe : List Nat → List Nat → Bool
  | [], _ => true
  | _ :: _, [] => false
  | a :: s, b :: t =>
    if a < b then true else if b < a then false else natListLe s t

/-- Code-point key of a string: each character shifted by one, with a
terminator smaller than every character, so that concatenated keys compare
like Python tuples of strings. -/
def strKey (s : String) : List Nat :=
  s.data.map (fun c => c.toNat + 1) ++ [0]

/-- Python `<` on strings (code-point lexicographic), as used by
`sorted`. -/
def strLeB (a b : String) : Bool :=
  natListLe (strKey a) (strKey b)

/-- Entry comparison used by `sorted(...)` over the listing: the joined
paths share the prefix `data_dir + "/"`, so Python's code-point order on
them is the code-point order on the names. -/
def nameLeB (a b : DirEntry) : Bool :=
  natListLe (strKey a.name) (strKey b.name)

/-- Injective order-preserving key for valid-calendar timestamps; Python
compares `datetime` values lexicographically by component, which this
mirrors on the component ranges the validated constructor allows. -/
def dtKey (t : DateTime) : Nat :=
  ((((t.year * 13 + t.month) * 32 + t.day) * 24 + t.hour) * 60 + t.minute)
      * 60 + t.second

/-- `df_all.sort_values(["user", "timestamp", "category"])` key. -/
def rowKey (r : AggRow) : List Nat :=
  strKey r.user ++ dtKey r.ts :: strKey r.category

/-- `df_all.sort_values(["user", "timestamp", "category"])` key order. -/
def rowLeB (a b : AggRow) : Bool :=
  natListLe (rowKey a) (rowKey b)

/-- A distinct `(user, timestamp, file)` triple of the point map. -/
abbrev Triple := String × DateTime × String

/-- `point_map.sort_values(["user", "timestamp"])` key. -/
def tripKey (t : Triple) : List Nat :=
  strKey t.1 ++ [dtKey t.2.1]

/-- `point_map.sort_values(["user", "timestamp"])` key order. -/
def tripLeB (a b : Triple) : Bool :=
  natListLe (tripKey a) (tripKey b)

/-- pandas `drop_duplicates()` (keep the first occurrence of each value):
an element is kept when it has not been `seen` among earlier elements. -/
def dedupFirstAux [DecidableEq α] (seen : List α) : List α → List α
  | [] => []
  | a :: l =>
    if a ∈ seen then dedupFirstAux seen l
    else a :: dedupFirstAux (seen ++ [a]) l

/-- pandas `drop_duplicates()` (keep the first occurrence). -/
def dedupFirst [DecidableEq α] (l : List α) : List α :=
  dedupFirstAux [] l

/-- `groupby("user").cumcount() + 1` over the sorted triples: each triple
is paired with one plus the number of earlier triples of the same user. -/
def cumPoints : List Triple → List Triple → List (Triple × Nat)
  | _, [] => []
  | prev, t :: rest =>
    (t, prev.countP (fun s => s.1 == t.1) + 1) :: cumPoints (prev ++ [t]) rest

/-- The left merge on `["user", "timestamp", "file"]`: look up the point of
a row's triple in the point map (the triples there are distinct, so the
first hit is the only one; every row's triple is present by construction,
so the `getD` default is never used). -/
def lookupPoint (pm : List (Triple × Nat)) (t : Triple) : Nat :=
  ((pm.find? (fun p => p.1 == t)).map (·.2)).getD 0

/-- The `(user, timestamp, file)` projection of a row. -/
def tripleOf (r : AggRow) : Triple :=
  (r.user, r.ts, r.file)

/-- `df_all` after `sort_values(["user", "timestamp", "category"])`. -/
def dfAllOf (raw : List AggRow) : List AggRow :=
  insSort rowLeB raw

/-- `point_map`: the distinct `(user, timestamp, file)` triples of the
sorted rows (`drop_duplicates`), sorted by `(user, timestamp)`. -/
def pointMapOf (raw : List AggRow) : List Triple :=
  insSort tripLeB (dedupFirst ((dfAllOf raw).map tripleOf))

/-- `point_map` with its `point` column: `groupby("user").cumcount() + 1`. -/
def pointedOf (raw : List AggRow) : List (Triple × Nat) :=
  cumPoints [] (pointMapOf raw)

/-- Lines 134-149 of `streamlit_app.py`: empty short-circuit, stable sort
by (user, timestamp, category), the distinct-triple point map sorted by
(user, timestamp) with `cumcount() + 1`, and the left merge of the point
back onto every row. -/
def pointAssign (raw : List AggRow) : List AggRow :=
  if raw.isEmpty then []
  else
    (dfAllOf raw).map
      (fun r => { r with point := lookupPoint (pointedOf raw) (tripleOf r) })

/-- The `for fpath in csv_files` loop: filename-parse failures skip the
file; a raised read error propagates (it is outside the `try`), aborting
the remaining iterations. -/
def processFiles : List DirEntry → Except PdError (List AggRow)
  | [] => .ok []
  | e :: rest =>
    match parse_user_and_timestamp_from_filename e.name with
    | none => processFiles rest
    | some (user, ts) =>
      match read_csv_with_encoding e.read with
      | .error err => .error err
      | .ok df =>
        match processFiles rest with
        | .error err => .error err
        | .ok rows => .ok (fileRows user ts e.name df ++ rows)

/-- `aggregate_folder`: filter the listing to `.csv` names, sort, process
each file, then assign points.  A raised exception is `Except.error`. -/
def aggregate_folder (entries : List DirEntry) : Except PdError (List AggRow) :=
  match processFiles (insSort nameLeB (entries.filter (fun e => csvName e.name))) with
  | .error err => .error err
  | .ok raw => .ok (pointAssign raw)

/-! ### Comparison page (`pages/학기초학기말비교.py`) -/

/-- Python `d.get(u, 0)` on a per-user count dict. -/
def dget (m : List (String × Nat)) (k : String) : Nat :=
  ((m.find? (fun p => p.1 == k)).map (·.2)).getD 0

/-- One row of the per-user comparison table (발화 = utterances,
파일 = files, 증감 = delta); deltas are Python int subtractions. -/
structure CompRow where
  user : String
  eUtt : Nat
  lUtt : Nat
  dUtt : Int
  eFile : Nat
  lFile : Nat
  dFile : Int
deriving DecidableEq, Repr

/-- `all_users = sorted(set(list(early.keys()) + list(late.keys())))`. -/
def all_users (early late : List (String × Nat)) : List String :=
  insSort strLeB (dedupFirst (early.map Prod.fst ++ late.map Prod.fst))

/-- The `comparison_table` loop: one row per user in `all_users`, with
`get(u, 0)` defaults and `delta = late - early`. -/
def comparison_table (eu lu ef lf : List (String × Nat)) : List CompRow :=
  (all_users eu lu).map (fun u =>
    { user := u
      eUtt := dget eu u
      lUtt := dget lu u
      dUtt := (dget lu u : Int) - (dget eu u : Int)
      eFile := dget ef u
      lFile := dget lf u
      dFile := (dget lf u : Int) - (dget ef u : Int) })

/-! ### Filename construction (the spec's grammar, for the round-trip) -/

/-- The Korean AM/PM marker text. -/
def ampmChars : Ampm → List Char
  | .am => ['오', '전']
  | .pm => ['오', '후']

/-- The timestamp segment `<YYYY>. <M>. <D>. <marker> <H>-<MM>-<SS>` of the
spec's filename grammar (section 6), with single spaces after the periods
and after the marker. -/
def timestampChars (y M D : Nat) (ap : Ampm) (h12 mi s : Nat) : List Char :=
  natChars y ++ '.' :: ' ' :: (natChars M ++ '.' :: ' '
    :: (natChars D ++ '.' :: ' ' :: (ampmChars ap ++ ' '
      :: (natChars h12 ++ '-' :: (pad2 mi ++ '-' :: pad2 s)))))

/-- A filename `<user_id>_<YYYY>. <M>. <D>. <marker> <H>-<MM>-<SS>.csv`
built per the spec's grammar. -/
def mkFilename (user : String) (y M D : Nat) (ap : Ampm)
    (h12 mi s : Nat) : String :=
  ⟨user.data ++ '_' :: (timestampChars y M D ap h12 mi s ++ ['.', 'c', 's', 'v'])⟩

/-! ### Concrete fixtures used by witness theorems -/

/-- A table with the two required columns. -/
def demoTable : CsvFile :=
  ⟨["TMSSR", "Potential"], [["Eliciting", "High"], ["faciliatating", "low"]]⟩

/-- A file that decodes only under `cp949`. -/
def demoCp949File : OnDiskFile := fun e =>
  if e = some "cp949" then .ok demoTable else .error .unicodeDecodeError

/-- A file whose first decode attempt raises a non-Unicode error. -/
def demoParseErrFile : OnDiskFile := fun _ =>
  .error (.otherError 7)

/-- A file none of whose decode attempts succeeds: every encoding attempt
raises `UnicodeDecodeError` and the final default attempt raises a
different error. -/
def demoAllFailFile : OnDiskFile := fun e =>
  if e = none then .error (.otherError 3) else .error .unicodeDecodeError

/-- A file that always decodes to `demoTable`. -/
def demoGoodFile : OnDiskFile := fun _ => .ok demoTable

/-- A well-formed entry that reads fine. -/
def demoGoodEntry : DirEntry :=
  ⟨"가_2025. 9. 11. 오전 9-30-00.csv", demoGoodFile⟩

/-- A well-formed entry whose file cannot be decoded. -/
def demoBadEntry : DirEntry :=
  ⟨"나_2025. 12. 4. 오후 1-00-00.csv", demoAllFailFile⟩

/-- A directory with one readable and one undecodable file. -/
def demoAbortDir : List DirEntry := [demoGoodEntry, demoBadEntry]

/-- A one-user directory whose listing order disagrees with timestamp
order. -/
def demoPointsDir : List DirEntry :=
  [⟨"민수_2025. 12. 4. 오후 1-00-00.csv", demoGoodFile⟩,
   ⟨"민수_2025. 9. 11. 오전 9-30-00.csv", demoGoodFile⟩]

/-- Comparison fixtures. -/
def demoEU : List (String × Nat) := [("a", 3)]

def demoLU : List (String × Nat) := [("a", 1), ("b", 5)]

def demoEF : List (String × Nat) := []

def demoLF : List (String × Nat) := [("b", 2)]

/-- The row `comparison_table demoEU demoLU demoEF demoLF` produces for
user `"a"`. -/
def demoRowA : CompRow :=
  { user := "a", eUtt := 3, lUtt := 1, dUtt := -2,
    eFile := 0, lFile := 0, dFile := 0 }

/-! ### Helper lemmas about the sorting and dedup primitives -/

theorem ordIns_perm (le : α → α → Bool) (a : α) (l : List α) :
    List.Perm (ordIns le a l) (a :: l) := by
  induction l with
  | nil => exact List.Perm.refl _
  | cons b t ih =>
    rw [ordIns]
    split
    · exact List.Perm.refl _
    · exact (ih.cons b).trans (List.Perm.swap a b t)

theorem insSort_perm (le : α → α → Bool) (l : List α) :
    List.Perm (insSort le l) l := by
  induction l with
  | nil => exact List.Perm.refl _
  | cons a t ih => exact (ordIns_perm le a (insSort le t)).trans (ih.cons a)

theorem mem_insSort (le : α → α → Bool) (a : α) (l : List α) :
    a ∈ insSort le l ↔ a ∈ l :=
  (insSort_perm le l).mem_iff

theorem mem_dedupFirstAux [DecidableEq α] (a : α) :
    ∀ (l seen : List α), a ∈ dedupFirstAux seen l ↔ a ∈ l ∧ a ∉ seen := by
  intro l
  induction l with
  | nil => simp [dedupFirstAux]
  | cons b t ih =>
    intro seen
    rw [dedupFirstAux]
    by_cases hb : b ∈ seen
    · rw [if_pos hb, ih]
      simp only [List.mem_cons]
      constructor
      · exact fun ⟨h1, h2⟩ => ⟨Or.inr h1, h2⟩
      · rintro ⟨rfl | h1, h2⟩
        · exact absurd hb h2
        · exact ⟨h1, h2⟩
    · rw [if_neg hb]
      simp only [List.mem_cons, ih, List.mem_append, List.mem_singleton]
      constructor
      · rintro (rfl | ⟨h1, h2⟩)
        · exact ⟨Or.inl rfl, hb⟩
        · exact ⟨Or.inr h1, fun hs => h2 (Or.inl hs)⟩
      · rintro ⟨rfl | h1, h2⟩
        · exact Or.inl rfl
        · by_cases hab : a = b
          · exact Or.inl hab
          · exact Or.inr ⟨h1, by tauto⟩

theorem mem_dedupFirst [DecidableEq α] (a : α) (l : List α) :
    a ∈ dedupFirst l ↔ a ∈ l := by
  rw [dedupFirst, mem_dedupFirstAux]
  simp

theorem nodup_dedupFirstAux [DecidableEq α] :
    ∀ (l seen : List α), (dedupFirstAux seen l).Nodup := by
  intro l
  induction l with
  | nil => intro seen; simp [dedupFirstAux]
  | cons b t ih =>
    intro seen
    rw [dedupFirstAux]
    split
    · exact ih seen
    · refine List.nodup_cons.mpr ⟨?_, ih _⟩
      intro hmem
      have := (mem_dedupFirstAux b t _).mp hmem
      simp at this

theorem nodup_dedupFirst [DecidableEq α] (l : List α) :
    (dedupFirst l).Nodup :=
  nodup_dedupFirstAux l []

theorem natListLe_total (a b : List Nat) :
    natListLe a b = true ∨ natListLe b a = true := by
  induction a generalizing b with
  | nil => exact Or.inl rfl
  | cons x s ih =>
    cases b with
    | nil => exact Or.inr rfl
    | cons y t =>
      by_cases h1 : x < y
      · exact Or.inl (by simp [natListLe, h1])
      · by_cases h2 : y < x
        · exact Or.inr (by simp [natListLe, h2])
        · rcases ih t with h | h
          · exact Or.inl (by simp [natListLe, h1, h2, h])
          · exact Or.inr (by simp [natListLe, h1, h2, h])

theorem natListLe_trans :
    ∀ a b c : List Nat, natListLe a b = true → natListLe b c = true →
      natListLe a c = true := by
  intro a
  induction a with
  | nil => intro b c _ _; rfl
  | cons x s ih =>
    intro b c hab hbc
    cases b with
    | nil => simp [natListLe] at hab
    | cons y t =>
      cases c with
      | nil => simp [natListLe] at hbc
      | cons z u =>
        simp only [natListLe] at hab hbc ⊢
        split_ifs at hab hbc ⊢ <;>
          first
            | rfl
            | contradiction
            | (exact ih t u hab hbc)
            | (exfalso; omega)

theorem natListLe_antisymm :
    ∀ a b : List Nat, natListLe a b = true → natListLe b a = true → a = b := by
  intro a
  induction a with
  | nil =>
    intro b _ hba
    cases b with
    | nil => rfl
    | cons y t => simp [natListLe] at hba
  | cons x s ih =>
    intro b hab hba
    cases b with
    | nil => simp [natListLe] at hab
    | cons y t =>
      simp only [natListLe] at hab hba
      split_ifs at hab hba <;>
        first
          | contradiction
          | (exfalso; omega)
          | (have hxy : x = y := by omega
             rw [hxy, ih t hab hba])

theorem sorted_ordIns (le : α → α → Bool)
    (htot : ∀ a b, le a b = true ∨ le b a = true)
    (htr : ∀ a b c, le a b = true → le b c = true → le a c = true)
    (a : α) (l : List α) (hl : SortedB le l) : SortedB le (ordIns le a l) := by
  induction l with
  | nil => exact List.pairwise_singleton _ a
  | cons b t ih =>
    rw [ordIns]
    rcases List.pairwise_cons.mp hl with ⟨hbt, ht⟩
    split
    · rename_i hab
      refine List.pairwise_cons.mpr ⟨?_, hl⟩
      intro x hx
      rcases List.mem_cons.mp hx with rfl | hx
      · exact hab
      · exact htr a b x hab (hbt x hx)
    · rename_i hab
      have hba : le b a = true := by
        rcases htot a b with h | h
        · exact absurd h hab
        · exact h
      refine List.pairwise_cons.mpr ⟨?_, ih ht⟩
      intro x hx
      rcases List.mem_cons.mp ((ordIns_perm le a t).mem_iff.mp hx) with rfl | hx
      · exact hba
      · exact hbt x hx

theorem sorted_insSort (le : α → α → Bool)
    (htot : ∀ a b, le a b = true ∨ le b a = true)
    (htr : ∀ a b c, le a b = true → le b c = true → le a c = true)
    (l : List α) : SortedB le (insSort le l) := by
  induction l with
  | nil => exact List.Pairwise.nil
  | cons a t ih => exact sorted_ordIns le htot htr a (insSort le t) ih

theorem filter_ordIns (le : α → α → Bool)
    (htr : ∀ a b c, le a b = true → le b c = true → le a c = true)
    (p : α → Bool) (a : α) (l : List α) (hl : SortedB le l) :
    (ordIns le a l).filter p
      = if p a then ordIns le a (l.filter p) else l.filter p := by
  induction l with
  | nil =>
    rw [ordIns]
    by_cases hpa : p a
    · simp [hpa, ordIns]
    · simp [hpa]
  | cons b t ih =>
    rcases List.pairwise_cons.mp hl with ⟨hbt, ht⟩
    rw [ordIns]
    split
    · rename_i hab
      by_cases hpa : p a
      · rw [List.filter_cons, if_pos hpa]
        have hhead : ordIns le a ((b :: t).filter p) = a :: (b :: t).filter p := by
          cases hfl : (b :: t).filter p with
          | nil => rfl
          | cons c r =>
            have hc : c ∈ (b :: t).filter p := by rw [hfl]; exact List.mem_cons_self c r
            have hc' := List.mem_of_mem_filter hc
            have hac : le a c = true := by
              rcases List.mem_cons.mp hc' with rfl | hct
              · exact hab
              · exact htr a b c hab (hbt c hct)
            rw [ordIns, if_pos hac]
        rw [if_pos hpa, hhead]
      · rw [List.filter_cons, if_neg hpa, if_neg hpa]
    · rename_i hab
      rw [List.filter_cons]
      by_cases hpb : p b
      · rw [if_pos hpb, List.filter_cons, if_pos hpb, ih ht]
        by_cases hpa : p a
        · rw [if_pos hpa, if_pos hpa, ordIns, if_neg hab]
        · rw [if_neg hpa, if_neg hpa]
      · rw [if_neg hpb, List.filter_cons, if_neg hpb, ih ht]

theorem filter_insSort (le : α → α → Bool)
    (htot : ∀ a b, le a b = true ∨ le b a = true)
    (htr : ∀ a b c, le a b = true → le b c = true → le a c = true)
    (p : α → Bool) (l : List α) :
    (insSort le l).filter p = insSort le (l.filter p) := by
  induction l with
  | nil => rfl
  | cons a t ih =>
    rw [insSort, List.filter_cons]
    rw [filter_ordIns le htr p a (insSort le t) (sorted_insSort le htot htr t), ih]
    by_cases hpa : p a
    · rw [if_pos hpa, if_pos hpa, insSort]
    · rw [if_neg hpa, if_neg hpa]

theorem nameLe_total (a b : DirEntry) :
    nameLeB a b = true ∨ nameLeB b a = true :=
  natListLe_total _ _

theorem nameLe_trans (a b c : DirEntry) :
    nameLeB a b = true → nameLeB b c = true → nameLeB a c = true :=
  natListLe_trans _ _ _

theorem sorted_perm_nodup_eq (le : α → α → Bool) :
    ∀ (l1 l2 : List α), SortedB le l1 → SortedB le l2 → List.Perm l1 l2 →
      (∀ a ∈ l1, ∀ b ∈ l1, le a b = true → le b a = true → a = b) →
      l1 = l2 := by
  intro l1
  induction l1 with
  | nil =>
    intro l2 _ _ hp _
    exact hp.nil_eq
  | cons a t ih =>
    intro l2 h1 h2 hp hanti
    cases l2 with
    | nil =>
      have := hp.length_eq
      simp at this
    | cons b t2 =>
      have hab : a = b := by
        have ha2 : a ∈ b :: t2 := hp.subset (List.mem_cons_self a t)
        have hb1 : b ∈ a :: t := hp.symm.subset (List.mem_cons_self b t2)
        rcases List.mem_cons.mp ha2 with h | ha2'
        · exact h
        · rcases List.mem_cons.mp hb1 with h | hb1'
          · exact h.symm
          · have hle1 : le a b = true := (List.pairwise_cons.mp h1).1 b hb1'
            have hle2 : le b a = true := (List.pairwise_cons.mp h2).1 a ha2'
            exact hanti a (List.mem_cons_self a t) b
              (List.mem_cons.mpr (Or.inr hb1')) hle1 hle2
      subst hab
      rw [ih t2 (List.pairwise_cons.mp h1).2 (List.pairwise_cons.mp h2).2
        hp.cons_inv
        (fun x hx y hy => hanti x (List.mem_cons.mpr (Or.inr hx)) y
          (List.mem_cons.mpr (Or.inr hy)))]

theorem strKey_inj (a b : String) (h : strKey a = strKey b) : a = b := by
  unfold strKey at h
  have hlen : (a.data.map (fun c => c.toNat + 1)).length
      = (b.data.map (fun c => c.toNat + 1)).length := by
    have := congrArg List.length h
    simpa using this
  obtain ⟨h1, -⟩ := List.append_inj h hlen
  have hdata : a.data = b.data := by
    refine List.map_injective_iff.mpr ?_ h1
    intro c d hcd
    have hval : c.toNat = d.toNat := by
      have : c.toNat + 1 = d.toNat + 1 := hcd
      omega
    have : Char.ofNat c.toNat = Char.ofNat d.toNat := by rw [hval]
    rwa [Char.ofNat_toNat, Char.ofNat_toNat] at this
  exact congrArg String.mk hdata

theorem tripLe_total (a b : Triple) : tripLeB a b = true ∨ tripLeB b a = true :=
  natListLe_total _ _

theorem tripLe_trans (a b c : Triple) :
    tripLeB a b = true → tripLeB b c = true → tripLeB a c = true :=
  natListLe_trans _ _ _

theorem natListLe_append_same :
    ∀ (k s t : List Nat), natListLe (k ++ s) (k ++ t) = natListLe s t := by
  intro k
  induction k with
  | nil => intro s t; rfl
  | cons x r ih =>
    intro s t
    simp only [List.cons_append, natListLe, Nat.lt_irrefl, if_false]
    exact ih s t

theorem natListLe_single (x y : Nat) : natListLe [x] [y] = true ↔ x ≤ y := by
  rcases Nat.lt_trichotomy x y with h | h | h <;>
    simp [natListLe, h, Nat.lt_irrefl] <;> omega

theorem tripLe_same_user (u : String) (t1 t2 : Triple)
    (h1 : t1.1 = u) (h2 : t2.1 = u) :
    tripLeB t1 t2 = true ↔ dtKey t1.2.1 ≤ dtKey t2.2.1 := by
  unfold tripLeB tripKey
  rw [h1, h2, natListLe_append_same]
  exact natListLe_single _ _

theorem cumPoints_fst_mem :
    ∀ (l prev : List Triple) (q : Triple × Nat),
      q ∈ cumPoints prev l → q.1 ∈ l := by
  intro l
  induction l with
  | nil => intro prev q h; cases h
  | cons t rest ih =>
    intro prev q h
    rw [cumPoints] at h
    rcases List.mem_cons.mp h with rfl | h'
    · exact List.mem_cons_self _ _
    · exact List.mem_cons.mpr (Or.inr (ih _ q h'))

theorem lookupPoint_cumPoints_split (t : Triple) :
    ∀ (l1 prev l2 : List Triple), (l1 ++ t :: l2).Nodup →
      lookupPoint (cumPoints prev (l1 ++ t :: l2)) t
        = (prev ++ l1).countP (fun s => s.1 == t.1) + 1 := by
  intro l1
  induction l1 with
  | nil =>
    intro prev l2 _
    rw [List.nil_append, cumPoints]
    unfold lookupPoint
    rw [List.find?_cons_of_pos _ (by simp)]
    simp
  | cons s l1' ih =>
    intro prev l2 hnd
    rw [List.cons_append] at hnd
    obtain ⟨hs, hnd2⟩ := List.nodup_cons.mp hnd
    have hst : s ≠ t := by
      intro heq
      apply hs
      rw [heq]
      exact List.mem_append.mpr (Or.inr (List.mem_cons_self t l2))
    rw [List.cons_append, cumPoints]
    unfold lookupPoint
    rw [List.find?_cons_of_neg _ (by simp [hst])]
    have hrec := ih (prev ++ [s]) l2 hnd2
    unfold lookupPoint at hrec
    rw [hrec, List.append_assoc, List.singleton_append]

theorem lookupPoint_of_mem_cumPoints :
    ∀ (l prev : List Triple), l.Nodup → ∀ q ∈ cumPoints prev l,
      lookupPoint (cumPoints prev l) q.1 = q.2 := by
  intro l
  induction l with
  | nil => intro prev _ q h; cases h
  | cons t rest ih =>
    intro prev hnd q hq
    rw [cumPoints] at hq ⊢
    rcases List.mem_cons.mp hq with rfl | hq'
    · unfold lookupPoint
      rw [List.find?_cons_of_pos _ (by simp)]
      simp
    · have hq1 : q.1 ∈ rest := cumPoints_fst_mem rest _ q hq'
      have hne : t ≠ q.1 := fun heq =>
        (List.nodup_cons.mp hnd).1 (heq ▸ hq1)
      unfold lookupPoint
      rw [List.find?_cons_of_neg _ (by simp [hne])]
      exact ih (prev ++ [t]) (List.nodup_cons.mp hnd).2 q hq'

theorem cumPoints_user_points (u : String) :
    ∀ (l prev : List Triple) (k : Nat),
      (∃ q ∈ cumPoints prev l, q.1.1 = u ∧ q.2 = k)
        ↔ prev.countP (fun s => s.1 == u) + 1 ≤ k
          ∧ k ≤ prev.countP (fun s => s.1 == u)
              + l.countP (fun s => s.1 == u) := by
  intro l
  induction l with
  | nil =>
    intro prev k
    constructor
    · rintro ⟨q, hq, -⟩
      simp [cumPoints] at hq
    · intro h
      simp only [List.countP_nil] at h
      omega
  | cons t rest ih =>
    intro prev k
    have hcons : (t :: rest).countP (fun s => s.1 == u)
        = rest.countP (fun s => s.1 == u) + (if t.1 = u then 1 else 0) := by
      rw [List.countP_cons]
      by_cases ht : t.1 = u <;> simp [ht]
    have happ : (prev ++ [t]).countP (fun s => s.1 == u)
        = prev.countP (fun s => s.1 == u) + (if t.1 = u then 1 else 0) := by
      rw [List.countP_append, List.countP_cons]
      by_cases ht : t.1 = u <;> simp [ht]
    rw [cumPoints, hcons]
    constructor
    · rintro ⟨q, hq, hqu, hqk⟩
      rcases List.mem_cons.mp hq with rfl | hq'
      · simp only at hqu hqk
        have hcc : prev.countP (fun s => s.1 == t.1)
            = prev.countP (fun s => s.1 == u) := by rw [hqu]
        rw [hcc] at hqk
        rw [if_pos hqu]
        omega
      · have hrec := (ih (prev ++ [t]) k).mp ⟨q, hq', hqu, hqk⟩
        rw [happ] at hrec
        by_cases ht : t.1 = u
        · rw [if_pos ht] at hrec ⊢; omega
        · rw [if_neg ht] at hrec ⊢; omega
    · intro hk
      by_cases ht : t.1 = u
      · rw [if_pos ht] at hk
        by_cases hk1 : k = prev.countP (fun s => s.1 == u) + 1
        · refine ⟨(t, prev.countP (fun s => s.1 == t.1) + 1),
            List.mem_cons_self _ _, ht, ?_⟩
          simp only
          rw [show prev.countP (fun s => s.1 == t.1)
            = prev.countP (fun s => s.1 == u) from by rw [ht], hk1]
        · obtain ⟨q, hq', hqu, hqk⟩ := (ih (prev ++ [t]) k).mpr (by
            rw [happ, if_pos ht]
            omega)
          exact ⟨q, List.mem_cons.mpr (Or.inr hq'), hqu, hqk⟩
      · rw [if_neg ht] at hk
        obtain ⟨q, hq', hqu, hqk⟩ := (ih (prev ++ [t]) k).mpr (by
          rw [happ, if_neg ht]
          omega)
        exact ⟨q, List.mem_cons.mpr (Or.inr hq'), hqu, hqk⟩

theorem catRow_low (user : String) (ts : DateTime) (fname : String)
    (df : CsvFile) (ti pot : Nat) (cat : String) :
    (catRow user ts fname df ti pot cat).low
      = (df.cells.filter
          (fun row => normCategory (cellAt row ti) == some cat)).countP
          (fun row => normKey (cellAt row pot) == "low") := by
  unfold catRow
  dsimp only
  split
  · rename_i h
    simp [List.isEmpty_iff.mp h]
  · rfl

theorem catRow_high (user : String) (ts : DateTime) (fname : String)
    (df : CsvFile) (ti pot : Nat) (cat : String) :
    (catRow user ts fname df ti pot cat).high
      = (df.cells.filter
          (fun row => normCategory (cellAt row ti) == some cat)).countP
          (fun row => normKey (cellAt row pot) == "high") := by
  unfold catRow
  dsimp only
  split
  · rename_i h
    simp [List.isEmpty_iff.mp h]
  · rfl

theorem processFiles_ok_mem :
    ∀ (l : List DirEntry) (rows : List AggRow),
      processFiles l = .ok rows → ∀ r : AggRow,
      (r ∈ rows ↔ ∃ e ∈ l, ∃ u ts df,
        parse_user_and_timestamp_from_filename e.name = some (u, ts)
        ∧ read_csv_with_encoding e.read = .ok df
        ∧ r ∈ fileRows u ts e.name df) := by
  intro l
  induction l with
  | nil =>
    intro rows hok r
    have hrows : rows = [] := (Except.ok.inj hok).symm
    subst hrows
    simp
  | cons f t ih =>
    intro rows hok r
    cases hp : parse_user_and_timestamp_from_filename f.name with
    | none =>
      simp only [processFiles, hp] at hok
      rw [ih rows hok r]
      constructor
      · rintro ⟨e, he, hrest⟩
        exact ⟨e, List.mem_cons.mpr (Or.inr he), hrest⟩
      · rintro ⟨e, he, u, ts, df, hpe, hrde, hr⟩
        rcases List.mem_cons.mp he with rfl | he'
        · rw [hp] at hpe
          exact Option.noConfusion hpe
        · exact ⟨e, he', u, ts, df, hpe, hrde, hr⟩
    | some p =>
      obtain ⟨u0, ts0⟩ := p
      simp only [processFiles, hp] at hok
      cases hrd : read_csv_with_encoding f.read with
      | error err =>
        rw [hrd] at hok
        exact absurd hok (by simp)
      | ok df0 =>
        rw [hrd] at hok
        cases hpt : processFiles t with
        | error err =>
          rw [hpt] at hok
          exact absurd hok (by simp)
        | ok rows0 =>
          rw [hpt] at hok
          have hrows : rows = fileRows u0 ts0 f.name df0 ++ rows0 :=
            (Except.ok.inj hok).symm
          subst hrows
          rw [List.mem_append, ih rows0 hpt r]
          constructor
          · rintro (h | ⟨e, he, hrest⟩)
            · exact ⟨f, List.mem_cons_self f t, u0, ts0, df0, hp, hrd, h⟩
            · exact ⟨e, List.mem_cons.mpr (Or.inr he), hrest⟩
          · rintro ⟨e, he, u, ts, df, hpe, hrde, hr⟩
            rcases List.mem_cons.mp he with rfl | he'
            · left
              rw [hp] at hpe
              injection hpe with hpe'
              cases hpe'
              rw [hrd] at hrde
              injection hrde with hdf
              cases hdf
              exact hr
            · right
              exact ⟨e, he', u, ts, df, hpe, hrde, hr⟩

theorem mem_pointMapOf (raw : List AggRow) (t : Triple) :
    t ∈ pointMapOf raw ↔ t ∈ (dfAllOf raw).map tripleOf := by
  unfold pointMapOf
  exact (mem_insSort _ _ _).trans (mem_dedupFirst _ _)

theorem nodup_pointMapOf (raw : List AggRow) : (pointMapOf raw).Nodup := by
  unfold pointMapOf
  exact ((insSort_perm tripLeB _).nodup_iff).mpr (nodup_dedupFirst _)

theorem sorted_pointMapOf (raw : List AggRow) :
    SortedB tripLeB (pointMapOf raw) := by
  unfold pointMapOf
  exact sorted_insSort _ tripLe_total tripLe_trans _

theorem points_ordered_aux (u : String) (l : List Triple)
    (hnd : l.Nodup) (hsort : SortedB tripLeB l)
    (t1 t2 : Triple) (h1 : t1 ∈ l) (h2 : t2 ∈ l)
    (hu1 : t1.1 = u) (hu2 : t2.1 = u)
    (hlt : dtKey t1.2.1 < dtKey t2.2.1) :
    lookupPoint (cumPoints [] l) t1 < lookupPoint (cumPoints [] l) t2 := by
  obtain ⟨l1', l2', hsp2⟩ := List.append_of_mem h2
  have hne : t1 ≠ t2 := by
    intro heq
    rw [heq] at hlt
    omega
  have ht1mem : t1 ∈ l1' := by
    rw [hsp2] at h1
    rcases List.mem_append.mp h1 with h | h
    · exact h
    · rcases List.mem_cons.mp h with heq | h'
      · exact absurd heq hne
      · exfalso
        have hple : SortedB tripLeB (l1' ++ t2 :: l2') := hsp2 ▸ hsort
        rw [SortedB, List.pairwise_append] at hple
        have hle := (List.pairwise_cons.mp hple.2.1).1 _ h'
        rw [tripLe_same_user u _ _ hu2 hu1] at hle
        omega
  obtain ⟨a, b, hsp1⟩ := List.append_of_mem ht1mem
  have hsp2' : l = a ++ t1 :: (b ++ t2 :: l2') := by
    rw [hsp2, hsp1, List.append_assoc, List.cons_append]
  have hsp3 : l = (a ++ t1 :: b) ++ t2 :: l2' := by
    rw [hsp2, hsp1]
  have hv1 : lookupPoint (cumPoints [] l) t1
      = a.countP (fun s => s.1 == t1.1) + 1 := by
    rw [hsp2', lookupPoint_cumPoints_split t1 a [] (b ++ t2 :: l2')
      (by rw [← hsp2']; exact hnd), List.nil_append]
  have hv2 : lookupPoint (cumPoints [] l) t2
      = (a ++ t1 :: b).countP (fun s => s.1 == t2.1) + 1 := by
    rw [hsp3, lookupPoint_cumPoints_split t2 (a ++ t1 :: b) [] l2'
      (by rw [← hsp3]; exact hnd), List.nil_append]
  rw [hv1, hv2, hu1, hu2, List.countP_append, List.countP_cons]
  have hif : (if (t1.1 == u) = true then 1 else 0) = 1 := by simp [hu1]
  rw [hif]
  omega

theorem points_range_aux (u : String) (l : List Triple)
    (hnd : l.Nodup) (k : Nat) :
    (∃ t ∈ l, t.1 = u ∧ lookupPoint (cumPoints [] l) t = k)
      ↔ 1 ≤ k ∧ k ≤ l.countP (fun s => s.1 == u) := by
  constructor
  · rintro ⟨t, ht, hu', hk⟩
    obtain ⟨l1, l2, hsp⟩ := List.append_of_mem ht
    have hkval : k = l1.countP (fun s => s.1 == t.1) + 1 := by
      rw [← hk, hsp, lookupPoint_cumPoints_split t l1 [] l2 (hsp ▸ hnd),
        List.nil_append]
    rw [hu'] at hkval
    refine ⟨by omega, ?_⟩
    rw [hsp, List.countP_append, List.countP_cons]
    have hif : (if (t.1 == u) = true then 1 else 0) = 1 := by simp [hu']
    rw [hif]
    omega
  · rintro ⟨h1, h2⟩
    obtain ⟨q, hq, hqu, hqk⟩ := (cumPoints_user_points u l [] k).mpr (by
      simp only [List.countP_nil]
      omega)
    refine ⟨q.1, cumPoints_fst_mem l [] q hq, hqu, ?_⟩
    rw [lookupPoint_of_mem_cumPoints l [] hnd q hq, hqk]

theorem digitChar_cases (d : Nat) :
    digitChar d ∈ (['0', '1', '2', '3', '4', '5', '6', '7', '8', '9', '*']
      : List Char) := by
  match d with
  | 0 | 1 | 2 | 3 | 4 | 5 | 6 | 7 | 8 | 9 => decide
  | n + 10 =>
    show ('*' : Char) ∈ _
    decide

theorem digitChar_prop (P : Char → Prop)
    (hp : ∀ c ∈ (['0', '1', '2', '3', '4', '5', '6', '7', '8', '9', '*']
      : List Char), P c)
    (d : Nat) : P (digitChar d) :=
  hp _ (digitChar_cases d)

theorem isPySpace_digitChar (d : Nat) : isPySpace (digitChar d) = false :=
  digitChar_prop (fun c => isPySpace c = false) (by decide) d

theorem digitVal_digitChar (d : Nat) (hd : d < 10) :
    digitVal? (digitChar d) = some d := by
  match d with
  | 0 | 1 | 2 | 3 | 4 | 5 | 6 | 7 | 8 | 9 => rfl
  | n + 10 => omega

theorem takeDigits_map_append (ds : List Nat) (hds : ∀ d ∈ ds, d < 10)
    (c : Char) (hc : digitVal? c = none) (r : List Char) :
    takeDigits (ds.map digitChar ++ c :: r) = (ds, c :: r) := by
  induction ds with
  | nil => simp [takeDigits, hc]
  | cons d t ih =>
    simp only [List.map_cons, List.cons_append, takeDigits,
      digitVal_digitChar d (hds d (List.mem_cons_self d t)), List.append_eq]
    rw [ih (fun x hx => hds x (List.mem_cons.mpr (Or.inr hx)))]

theorem takeDigits_map_all (ds : List Nat) (hds : ∀ d ∈ ds, d < 10) :
    takeDigits (ds.map digitChar) = (ds, []) := by
  induction ds with
  | nil => rfl
  | cons d t ih =>
    simp only [List.map_cons, takeDigits,
      digitVal_digitChar d (hds d (List.mem_cons_self d t)), List.append_eq]
    rw [ih (fun x hx => hds x (List.mem_cons.mpr (Or.inr hx)))]

theorem takeNDigits_map_append (lo hi : Nat) (ds : List Nat)
    (hds : ∀ d ∈ ds, d < 10) (hlen : lo ≤ ds.length ∧ ds.length ≤ hi)
    (c : Char) (hc : digitVal? c = none) (r : List Char) :
    takeNDigits lo hi (ds.map digitChar ++ c :: r)
      = some (valDigits ds, c :: r) := by
  unfold takeNDigits
  rw [takeDigits_map_append ds hds c hc r]
  exact if_pos hlen

theorem takeNDigits_map_all (lo hi : Nat) (ds : List Nat)
    (hds : ∀ d ∈ ds, d < 10) (hlen : lo ≤ ds.length ∧ ds.length ≤ hi) :
    takeNDigits lo hi (ds.map digitChar) = some (valDigits ds, []) := by
  unfold takeNDigits
  rw [takeDigits_map_all ds hds]
  exact if_pos hlen

theorem valDigits_digits (n : Nat) :
    valDigits ((Nat.digits 10 n).reverse) = n := by
  unfold valDigits
  rw [List.reverse_reverse]
  exact Nat.ofDigits_digits 10 n

theorem valDigits_pair (a b : Nat) : valDigits [a, b] = 10 * a + b := by
  unfold valDigits
  simp [Nat.ofDigits]
  omega

theorem digits_all_lt (n : Nat) : ∀ d ∈ (Nat.digits 10 n).reverse, d < 10 := by
  intro d hd
  exact Nat.digits_lt_base (by omega) (List.mem_reverse.mp hd)

theorem digits_len_four (y : Nat) (hy : 1000 ≤ y ∧ y ≤ 9999) :
    ((Nat.digits 10 y).reverse).length = 4 := by
  have hlog : Nat.log 10 y = 3 :=
    Nat.log_eq_of_pow_le_of_lt_pow (by norm_num; omega) (by norm_num; omega)
  rw [List.length_reverse, Nat.digits_len 10 y (by omega) (by omega), hlog]

theorem digits_len_one_two (n : Nat) (hn : 1 ≤ n ∧ n ≤ 99) :
    1 ≤ ((Nat.digits 10 n).reverse).length
      ∧ ((Nat.digits 10 n).reverse).length ≤ 2 := by
  rw [List.length_reverse, Nat.digits_len 10 n (by omega) (by omega)]
  have hlog : Nat.log 10 n < 2 :=
    Nat.log_lt_of_lt_pow (by omega) (by norm_num; omega)
  omega

theorem pad2_eq (n : Nat) : pad2 n = ([n / 10, n % 10]).map digitChar := rfl

theorem expectChar_cons_self (c : Char) (r : List Char) :
    expectChar c (c :: r) = some r := by
  simp [expectChar]

theorem skipWs_cons_space (l : List Char) : skipWs (' ' :: l) = skipWs l := by
  have h : isPySpace ' ' = true := by decide
  simp [skipWs, List.dropWhile_cons, h]

theorem skipWs_map_digits (ds : List Nat) (hne : ds ≠ []) (r : List Char) :
    skipWs (ds.map digitChar ++ r) = ds.map digitChar ++ r := by
  cases ds with
  | nil => exact absurd rfl hne
  | cons d t =>
    simp [skipWs, List.dropWhile_cons, isPySpace_digitChar d]

theorem skipWs_ampm (ap : Ampm) (r : List Char) :
    skipWs (ampmChars ap ++ r) = ampmChars ap ++ r := by
  have h : isPySpace '오' = false := by decide
  cases ap <;> simp [ampmChars, skipWs, List.dropWhile_cons, h]

theorem digits_rev_ne_nil (n : Nat) (hn : n ≠ 0) :
    ((Nat.digits 10 n).reverse) ≠ [] := by
  simp [Nat.digits_ne_nil_iff_ne_zero, hn]

theorem timestampChars_split (y M D : Nat) (ap : Ampm) (h12 mi s : Nat) :
    timestampChars y M D ap h12 mi s
      = (natChars y ++ '.' :: ' ' :: (natChars M ++ '.' :: ' '
          :: (natChars D ++ '.' :: ' ' :: (ampmChars ap ++ ' '
            :: (natChars h12 ++ '-' :: (pad2 mi ++ ['-']))))))
        ++ pad2 s := by
  simp [timestampChars, List.append_assoc]

theorem stripList_timestampChars (y M D : Nat) (ap : Ampm) (h12 mi s : Nat)
    (hy : y ≠ 0) :
    stripList (timestampChars y M D ap h12 mi s)
      = timestampChars y M D ap h12 mi s := by
  unfold stripList
  have h1 : (timestampChars y M D ap h12 mi s).dropWhile isPySpace
      = timestampChars y M D ap h12 mi s := by
    unfold timestampChars natChars
    exact skipWs_map_digits _ (digits_rev_ne_nil y hy) _
  rw [h1]
  have h2 : (timestampChars y M D ap h12 mi s).reverse.dropWhile isPySpace
      = (timestampChars y M D ap h12 mi s).reverse := by
    rw [timestampChars_split, List.reverse_append]
    rw [show (pad2 s).reverse = ([s % 10, s / 10]).map digitChar from rfl]
    exact skipWs_map_digits [s % 10, s / 10] (by simp) _
  rw [h2, List.reverse_reverse]

theorem splitFirstUnderscore_append (u : List Char) (hu : '_' ∉ u)
    (r : List Char) :
    splitFirstUnderscore (u ++ '_' :: r) = some (u, r) := by
  induction u with
  | nil => rfl
  | cons c t ih =>
    have hc : ¬ c = '_' := fun h => hu (List.mem_cons.mpr (Or.inl h.symm))
    have ih' := ih (fun h => hu (List.mem_cons.mpr (Or.inr h)))
    simp only [List.cons_append, splitFirstUnderscore, if_neg hc,
      List.append_eq, ih']

theorem stripLastCsv_append (stem : List Char) :
    stripLastCsv (stem ++ ['.', 'c', 's', 'v']) = stem := by
  unfold stripLastCsv
  rw [List.reverse_append]
  have h : dropCsvSuffixRev ((['.', 'c', 's', 'v'] : List Char).reverse
      ++ stem.reverse) = some stem.reverse := rfl
  rw [h]
  simp

theorem basename_eq_self (s : String) (h : ∀ c ∈ s.data, c ≠ '/') :
    basename s = s := by
  unfold basename
  have htw : s.data.reverse.takeWhile (fun c => c != '/') = s.data.reverse := by
    rw [List.takeWhile_eq_self_iff]
    intro c hc
    simp [h c (List.mem_reverse.mp hc)]
  rw [htw, List.reverse_reverse]

theorem mapDigit_ne_slash (ds : List Nat) :
    ∀ c ∈ ds.map digitChar, c ≠ '/' := by
  intro c hc
  obtain ⟨d, -, rfl⟩ := List.mem_map.mp hc
  exact digitChar_prop (fun x => x ≠ '/') (by decide) d

theorem timestampChars_ne_slash (y M D : Nat) (ap : Ampm) (h12 mi s : Nat) :
    ∀ c ∈ timestampChars y M D ap h12 mi s, c ≠ '/' := by
  have hampm : ∀ c ∈ ampmChars ap, c ≠ '/' := by
    cases ap <;> decide
  unfold timestampChars natChars
  rw [pad2_eq mi, pad2_eq s]
  refine List.forall_mem_append.mpr ⟨mapDigit_ne_slash _, ?_⟩
  refine List.forall_mem_cons.mpr ⟨by decide, ?_⟩
  refine List.forall_mem_cons.mpr ⟨by decide, ?_⟩
  refine List.forall_mem_append.mpr ⟨mapDigit_ne_slash _, ?_⟩
  refine List.forall_mem_cons.mpr ⟨by decide, ?_⟩
  refine List.forall_mem_cons.mpr ⟨by decide, ?_⟩
  refine List.forall_mem_append.mpr ⟨mapDigit_ne_slash _, ?_⟩
  refine List.forall_mem_cons.mpr ⟨by decide, ?_⟩
  refine List.forall_mem_cons.mpr ⟨by decide, ?_⟩
  refine List.forall_mem_append.mpr ⟨hampm, ?_⟩
  refine List.forall_mem_cons.mpr ⟨by decide, ?_⟩
  refine List.forall_mem_append.mpr ⟨mapDigit_ne_slash _, ?_⟩
  refine List.forall_mem_cons.mpr ⟨by decide, ?_⟩
  refine List.forall_mem_append.mpr ⟨mapDigit_ne_slash _, ?_⟩
  refine List.forall_mem_cons.mpr ⟨by decide, ?_⟩
  exact mapDigit_ne_slash _

theorem matchAmpm_chars (ap : Ampm) (r : List Char) :
    matchAmpm (ampmChars ap ++ r) = some (ap, r) := by
  cases ap <;> rfl

theorem matchTimestamp_mk (y M D : Nat) (ap : Ampm) (h12 mi s : Nat)
    (hy : 1000 ≤ y ∧ y ≤ 9999) (hM : 1 ≤ M ∧ M ≤ 99) (hD : 1 ≤ D ∧ D ≤ 99)
    (hh : 1 ≤ h12 ∧ h12 ≤ 99) (hmi : mi ≤ 99) (hs : s ≤ 99) :
    matchTimestamp (timestampChars y M D ap h12 mi s)
      = some (y, M, D, ap, h12, mi, s) := by
  have h4 := digits_len_four y hy
  have hylen : 4 ≤ ((Nat.digits 10 y).reverse).length
      ∧ ((Nat.digits 10 y).reverse).length ≤ 4 := by omega
  have hMlen := digits_len_one_two M hM
  have hDlen := digits_len_one_two D hD
  have hhlen := digits_len_one_two h12 hh
  have hMne := digits_rev_ne_nil M (by omega)
  have hDne := digits_rev_ne_nil D (by omega)
  have hhne := digits_rev_ne_nil h12 (by omega)
  have hmi10 : ∀ d ∈ ([mi / 10, mi % 10] : List Nat), d < 10 := by
    intro d hd
    rcases List.mem_cons.mp hd with rfl | hd'
    · omega
    · rcases List.mem_cons.mp hd' with rfl | hd''
      · omega
      · cases hd''
  have hs10 : ∀ d ∈ ([s / 10, s % 10] : List Nat), d < 10 := by
    intro d hd
    rcases List.mem_cons.mp hd with rfl | hd'
    · omega
    · rcases List.mem_cons.mp hd' with rfl | hd''
      · omega
      · cases hd''
  have hmival : 10 * (mi / 10) + mi % 10 = mi := by omega
  have hsval : 10 * (s / 10) + s % 10 = s := by omega
  unfold matchTimestamp timestampChars natChars
  rw [pad2_eq mi, pad2_eq s]
  simp only [Option.bind_eq_bind, Option.some_bind,
    takeNDigits_map_append 4 4 _ (digits_all_lt y) hylen '.' rfl,
    expectChar_cons_self, skipWs_cons_space,
    skipWs_map_digits _ hMne,
    takeNDigits_map_append 1 2 _ (digits_all_lt M) hMlen '.' rfl,
    skipWs_map_digits _ hDne,
    takeNDigits_map_append 1 2 _ (digits_all_lt D) hDlen '.' rfl,
    skipWs_ampm, matchAmpm_chars,
    skipWs_map_digits _ hhne,
    takeNDigits_map_append 1 2 _ (digits_all_lt h12) hhlen '-' rfl,
    takeNDigits_map_append 2 2 [mi / 10, mi % 10] hmi10 (by simp) '-' rfl,
    takeNDigits_map_all 2 2 [s / 10, s % 10] hs10 (by simp),
    valDigits_digits, valDigits_pair, hmival, hsval]
  rfl

theorem endsWithCsv_construct (l : List Char) :
    endsWithCsvLower (l ++ ['.', 'c', 's', 'v']) = true := by
  unfold endsWithCsvLower
  rw [List.map_append, List.reverse_append]
  rw [show ((['.', 'c', 's', 'v'] : List Char).map Char.toLower).reverse
    = ['v', 's', 'c', '.'] from rfl]
  rw [List.take_append_of_le_length (by decide)]
  rfl

theorem endsWithCsv_basename (s : String) :
    endsWithCsvLower (basename s).data = true → endsWithCsvLower s.data = true := by
  intro h
  unfold endsWithCsvLower at h ⊢
  unfold basename at h
  rw [beq_iff_eq] at h ⊢
  rw [List.map_reverse, List.reverse_reverse] at h
  rw [← List.map_reverse]
  obtain ⟨t, ht⟩ :=
    ((List.takeWhile_prefix (fun c => c != '/')).map Char.toLower)
  rw [List.map_reverse] at ht ⊢
  rw [← ht, List.take_append_of_le_length]
  · exact h
  · have hlen := congrArg List.length h
    simp at hlen
    rw [List.length_map]
    omega

theorem csvName_of_parse (s : String) (p : String × DateTime)
    (hp : parse_user_and_timestamp_from_filename s = some p) :
    csvName s = true := by
  unfold csvName
  by_cases hc : endsWithCsvLower (basename s).data = true
  · exact endsWithCsv_basename s hc
  · exfalso
    unfold parse_user_and_timestamp_from_filename at hp
    rw [if_neg hc] at hp
    exact Option.noConfusion hp

theorem processFiles_filter (l : List DirEntry) :
    processFiles l
      = processFiles (l.filter
          (fun e => (parse_user_and_timestamp_from_filename e.name).isSome)) := by
  induction l with
  | nil => rfl
  | cons e t ih =>
    rw [List.filter_cons]
    cases hp : parse_user_and_timestamp_from_filename e.name with
    | none =>
      simp only [Option.isSome_none, Bool.false_eq_true, if_false]
      simp only [processFiles, hp]
      exact ih
    | some p =>
      simp only [Option.isSome_some, if_true]
      simp only [processFiles, hp]
      rw [ih]

/-! ### Claim theorems -/

/-- C2: for every parsed timestamp segment, the Korean 12-hour → 24-hour
conversion is: 오전 (morning) with hour 12 gives 0, 오전 otherwise keeps the
hour; 오후 (afternoon) with hour 12 gives 12, 오후 otherwise adds 12 — the
parser applies exactly this rule, as the spec's four edge-case examples
confirm end to end. -/
theorem korean_ampm_conversion :
    (∀ hh : Nat, koreanAmPmHour Ampm.am hh = if hh = 12 then 0 else hh)
    ∧ (∀ hh : Nat, koreanAmPmHour Ampm.pm hh = if hh = 12 then 12 else hh + 12)
    ∧ parse_user_and_timestamp_from_filename "u_2025. 12. 4. 오전 12-00-00.csv"
        = some ("u", ⟨2025, 12, 4, 0, 0, 0⟩)
    ∧ parse_user_and_timestamp_from_filename "u_2025. 12. 4. 오후 12-00-00.csv"
        = some ("u", ⟨2025, 12, 4, 12, 0, 0⟩)
    ∧ parse_user_and_timestamp_from_filename "u_2025. 12. 4. 오전 5-00-00.csv"
        = some ("u", ⟨2025, 12, 4, 5, 0, 0⟩)
    ∧ parse_user_and_timestamp_from_filename "u_2025. 12. 4. 오후 5-00-00.csv"
        = some ("u", ⟨2025, 12, 4, 17, 0, 0⟩) := by
  exact ⟨fun _ => rfl, fun _ => rfl, by decide, by decide, by decide, by decide⟩

/-- C7: category normalization trims, lower-cases and looks the result up
in the fixed `CATEGORY_CANONICAL` map: canonical labels are fixed points,
any spelling whose trimmed lower-case form is the documented misspelling
`"faciliatating"` maps to `"Facilitating"`, and a string matching no key
yields `none` (excluded, not bucketed). -/
theorem category_normalization :
    (∀ cat ∈ CATEGORIES, normCategory cat = some cat)
    ∧ (∀ s c, normCategory s = some c → normCategory c = some c)
    ∧ (∀ s, normKey s = "faciliatating" → normCategory s = some "Facilitating")
    ∧ (∀ s, (∀ p ∈ CATEGORY_CANONICAL, p.1 ≠ normKey s) → normCategory s = none) := by
  refine ⟨by decide, ?_, ?_, ?_⟩
  · intro s c h
    obtain ⟨p, hp, hc⟩ : ∃ p ∈ CATEGORY_CANONICAL, p.2 = c := by
      unfold normCategory at h
      cases hf : CATEGORY_CANONICAL.find? (fun q => q.1 == normKey s) with
      | none => rw [hf] at h; simp at h
      | some p =>
        rw [hf] at h
        simp at h
        exact ⟨p, List.mem_of_find?_eq_some hf, h⟩
    subst hc
    fin_cases hp <;> decide
  · intro s h
    have : normCategory s
        = (CATEGORY_CANONICAL.find? (fun q => q.1 == normKey s)).map (·.2) := rfl
    rw [this, h]
    decide
  · intro s h
    have : normCategory s
        = (CATEGORY_CANONICAL.find? (fun q => q.1 == normKey s)).map (·.2) := rfl
    rw [this, List.find?_eq_none.mpr ?_]
    · rfl
    · intro p hp
      simpa using h p hp

/-- C7 witness: the theorem applied at an already-canonical label, a
cased/padded spelling of the misspelling, and an unrelated string. -/
theorem category_normalization_witness :
    normCategory "Eliciting" = some "Eliciting"
    ∧ normCategory " FACILIATATING " = some "Facilitating"
    ∧ normCategory "blah" = none :=
  ⟨category_normalization.1 "Eliciting" (by decide),
   category_normalization.2.2.1 " FACILIATATING " (by decide),
   category_normalization.2.2.2 "blah" (by decide)⟩

/-- C8: the loader attempts `utf-8-sig`, `cp949`, `utf-8` in that order,
returns the first successful decode, and after three Unicode failures its
result is exactly that of the final default-decode attempt, whatever that
is. -/
theorem read_csv_encoding_priority :
    fallbackEncodings = ["utf-8-sig", "cp949", "utf-8"]
    ∧ (∀ f t, f (some "utf-8-sig") = .ok t → read_csv_with_encoding f = .ok t)
    ∧ (∀ f t, f (some "utf-8-sig") = .error .unicodeDecodeError →
        f (some "cp949") = .ok t → read_csv_with_encoding f = .ok t)
    ∧ (∀ f t, f (some "utf-8-sig") = .error .unicodeDecodeError →
        f (some "cp949") = .error .unicodeDecodeError →
        f (some "utf-8") = .ok t → read_csv_with_encoding f = .ok t)
    ∧ (∀ f, f (some "utf-8-sig") = .error .unicodeDecodeError →
        f (some "cp949") = .error .unicodeDecodeError →
        f (some "utf-8") = .error .unicodeDecodeError →
        read_csv_with_encoding f = f none) := by
  refine ⟨rfl, ?_, ?_, ?_, ?_⟩ <;> intros <;>
    simp [read_csv_with_encoding, fallbackEncodings, tryEncodings, *]

/-- C8 witness: a file decodable only under `cp949` is returned from the
second attempt. -/
theorem read_csv_encoding_priority_witness :
    demoCp949File (some "utf-8-sig") = .error .unicodeDecodeError
    ∧ demoCp949File (some "cp949") = .ok demoTable
    ∧ read_csv_with_encoding demoCp949File = .ok demoTable :=
  ⟨rfl, rfl, read_csv_encoding_priority.2.2.1 demoCp949File demoTable rfl rfl⟩

/-- C10: the loader moves to the next encoding only on a Unicode decode
error; any other failure of an attempt becomes the loader's result at once
(for every possible behaviour of the remaining attempts). -/
theorem read_csv_error_propagation :
    (∀ f k, f (some "utf-8-sig") = .error (.otherError k) →
        read_csv_with_encoding f = .error (.otherError k))
    ∧ (∀ f k, f (some "utf-8-sig") = .error .unicodeDecodeError →
        f (some "cp949") = .error (.otherError k) →
        read_csv_with_encoding f = .error (.otherError k))
    ∧ (∀ f k, f (some "utf-8-sig") = .error .unicodeDecodeError →
        f (some "cp949") = .error .unicodeDecodeError →
        f (some "utf-8") = .error (.otherError k) →
        read_csv_with_encoding f = .error (.otherError k))
    ∧ (∀ f, f (some "utf-8-sig") = .error .unicodeDecodeError →
        read_csv_with_encoding f = tryEncodings f ["cp949", "utf-8"]) := by
  refine ⟨?_, ?_, ?_, ?_⟩ <;> intros <;>
    simp [read_csv_with_encoding, fallbackEncodings, tryEncodings, *]

theorem mem_all_users (u : String) (a b : List (String × Nat)) :
    u ∈ all_users a b ↔ u ∈ a.map Prod.fst ∨ u ∈ b.map Prod.fst := by
  unfold all_users
  rw [mem_insSort, mem_dedupFirst, List.mem_append]

/-- C9: every user key present in either per-user count map gets a
comparison row whose deltas are `late.get(u, 0) - early.get(u, 0)` (for
both the utterance and the file counts), and swapping the two periods'
inputs negates every row's deltas. -/
theorem comparison_delta (eu lu ef lf : List (String × Nat)) :
    (∀ u, u ∈ eu.map Prod.fst ∨ u ∈ lu.map Prod.fst →
        ∃ r ∈ comparison_table eu lu ef lf, r.user = u
          ∧ r.dUtt = (dget lu u : Int) - (dget eu u : Int)
          ∧ r.dFile = (dget lf u : Int) - (dget ef u : Int))
    ∧ (∀ r ∈ comparison_table eu lu ef lf,
        ∃ r' ∈ comparison_table lu eu lf ef,
          r'.user = r.user ∧ r'.dUtt = -r.dUtt ∧ r'.dFile = -r.dFile) := by
  constructor
  · intro u hu
    have hmem : u ∈ all_users eu lu := (mem_all_users u eu lu).mpr hu
    exact ⟨_, List.mem_map_of_mem _ hmem, rfl, rfl, rfl⟩
  · intro r hr
    obtain ⟨u, hu, rfl⟩ := List.mem_map.mp hr
    have hu' : u ∈ all_users lu eu := by
      rw [mem_all_users] at hu ⊢
      tauto
    refine ⟨_, List.mem_map_of_mem _ hu', rfl, ?_, ?_⟩ <;> simp

/-- C9 witness: the theorem applied at concrete maps, for a user present
only in the early map and for the row it produces. -/
theorem comparison_delta_witness :
    (∃ r ∈ comparison_table demoEU demoLU demoEF demoLF, r.user = "a"
      ∧ r.dUtt = (dget demoLU "a" : Int) - (dget demoEU "a" : Int)
      ∧ r.dFile = (dget demoLF "a" : Int) - (dget demoEF "a" : Int))
    ∧ (∃ r' ∈ comparison_table demoLU demoEU demoLF demoEF,
        r'.user = demoRowA.user ∧ r'.dUtt = -demoRowA.dUtt
        ∧ r'.dFile = -demoRowA.dFile) :=
  ⟨(comparison_delta demoEU demoLU demoEF demoLF).1 "a" (by decide),
   (comparison_delta demoEU demoLU demoEF demoLF).2 demoRowA (by decide)⟩

/-- C10 witness: a first-attempt non-Unicode failure is the final result. -/
theorem read_csv_error_propagation_witness :
    demoParseErrFile (some "utf-8-sig") = .error (.otherError 7)
    ∧ read_csv_with_encoding demoParseErrFile = .error (.otherError 7) :=
  ⟨rfl, read_csv_error_propagation.1 demoParseErrFile 7 rfl⟩

/-- C5: entries whose names fail the filename grammar have no effect on
`aggregate_folder` at all — the result over any listing equals the result
over the listing restricted to parseable names, so malformed names are
skipped silently, contribute no rows, and raise no error. -/
theorem malformed_filenames_skipped (entries : List DirEntry) :
    aggregate_folder entries
      = aggregate_folder (entries.filter
          (fun e => (parse_user_and_timestamp_from_filename e.name).isSome)) := by
  unfold aggregate_folder
  rw [processFiles_filter
    (insSort nameLeB (entries.filter (fun e => csvName e.name)))]
  rw [filter_insSort nameLeB nameLe_total nameLe_trans]
  rw [List.filter_filter, List.filter_filter]
  have hcong1 : entries.filter
      (fun e => (parse_user_and_timestamp_from_filename e.name).isSome
        && csvName e.name)
      = entries.filter
          (fun e => (parse_user_and_timestamp_from_filename e.name).isSome) := by
    apply List.filter_congr
    intro e _
    cases hp : parse_user_and_timestamp_from_filename e.name with
    | none => simp [hp]
    | some p => simp [hp, csvName_of_parse e.name p hp]
  have hcong2 : entries.filter
      (fun e => csvName e.name
        && (parse_user_and_timestamp_from_filename e.name).isSome)
      = entries.filter
          (fun e => (parse_user_and_timestamp_from_filename e.name).isSome) := by
    apply List.filter_congr
    intro e _
    cases hp : parse_user_and_timestamp_from_filename e.name with
    | none => simp [hp]
    | some p => simp [hp, csvName_of_parse e.name p hp]
  rw [hcong1, hcong2]

theorem processFiles_error_of_mem (l : List DirEntry) (e : DirEntry)
    (he : e ∈ l) (p : String × DateTime)
    (hp : parse_user_and_timestamp_from_filename e.name = some p)
    (err : PdError)
    (hr : read_csv_with_encoding e.read = .error err) :
    ∃ err', processFiles l = .error err' := by
  induction l with
  | nil => cases he
  | cons f t ih =>
    rcases List.mem_cons.mp he with rfl | he'
    · exact ⟨err, by simp only [processFiles, hp, hr]⟩
    · cases hf : parse_user_and_timestamp_from_filename f.name with
      | none =>
        obtain ⟨err', h'⟩ := ih he'
        exact ⟨err', by simp only [processFiles, hf]; exact h'⟩
      | some q =>
        cases hfr : read_csv_with_encoding f.read with
        | error err2 => exact ⟨err2, by simp only [processFiles, hf, hfr]⟩
        | ok df =>
          obtain ⟨err', h'⟩ := ih he'
          exact ⟨err', by simp only [processFiles, hf, hfr, h']⟩

/-- C4 counterexample: a directory with one readable well-formed file and
one well-formed file on which every fallback encoding raises
`UnicodeDecodeError` and the final default decode also fails.  The claim
says the bad file is skipped and aggregation continues; the code instead
propagates the failure out of `aggregate_folder`, so no aggregate (in
particular none containing the good file's rows) is returned. -/
theorem decode_failure_abort_counterexample :
    (∀ enc ∈ fallbackEncodings,
        demoAllFailFile (some enc) = .error .unicodeDecodeError)
    ∧ demoAllFailFile none = .error (.otherError 3)
    ∧ (parse_user_and_timestamp_from_filename demoBadEntry.name).isSome = true
    ∧ aggregate_folder demoAbortDir = .error (.otherError 3)
    ∧ ∀ agg, aggregate_folder demoAbortDir ≠ .ok agg := by
  refine ⟨?_, rfl, by decide, rfl, ?_⟩
  · intro enc henc
    fin_cases henc <;> rfl
  · intro agg h
    rw [show aggregate_folder demoAbortDir
      = Except.error (PdError.otherError 3) from rfl] at h
    exact Except.noConfusion h

/-- C4 amended: when the loader exhausts all fallback encodings on a file
whose name parses and the final default decode also fails, the failure
propagates out of `aggregate_folder` and aborts the whole directory scan
(the read is outside the `try` that only guards filename parsing); the
file is not skipped and no aggregate is produced. -/
theorem decode_failure_aborts_aggregation (entries : List DirEntry)
    (e : DirEntry) (he : e ∈ entries) (p : String × DateTime)
    (hp : parse_user_and_timestamp_from_filename e.name = some p)
    (err : PdError)
    (hr : read_csv_with_encoding e.read = .error err) :
    ∃ err', aggregate_folder entries = .error err' := by
  have hcsv : csvName e.name = true := csvName_of_parse e.name p hp
  have hmem : e ∈ insSort nameLeB (entries.filter (fun x => csvName x.name)) :=
    (mem_insSort _ _ _).mpr (List.mem_filter.mpr ⟨he, hcsv⟩)
  obtain ⟨err', h'⟩ := processFiles_error_of_mem _ e hmem p hp err hr
  exact ⟨err', by unfold aggregate_folder; rw [h']⟩

/-- C4 witness (for the amended claim): the undecodable entry of the
two-file demo directory aborts its aggregation. -/
theorem decode_failure_aborts_aggregation_witness :
    ∃ err', aggregate_folder demoAbortDir = .error err' :=
  decode_failure_aborts_aggregation demoAbortDir demoBadEntry
    (List.Mem.tail _ (List.Mem.head _))
    ("나", ⟨2025, 12, 4, 13, 0, 0⟩) rfl (.otherError 3) rfl

/-- C1: over a directory listing with distinct names, the aggregate's
point assignment is a function of a row's (user, timestamp, file) triple;
for a fixed user, rows at a strictly earlier timestamp get a strictly
smaller point; the points of a user's rows are exactly `1..N` where `N` is
the number of the user's distinct (user, timestamp, file) triples in the
aggregate; and the whole aggregate is unchanged under any permutation of
the listing. -/
theorem point_numbering_dense_ordered (entries : List DirEntry)
    (hnd : (entries.map DirEntry.name).Nodup)
    (agg : List AggRow) (hok : aggregate_folder entries = .ok agg)
    (u : String) :
    (∀ r1 ∈ agg, ∀ r2 ∈ agg, r1.user = u → r2.user = u →
        r1.ts = r2.ts → r1.file = r2.file → r1.point = r2.point)
    ∧ (∀ r1 ∈ agg, ∀ r2 ∈ agg, r1.user = u → r2.user = u →
        dtKey r1.ts < dtKey r2.ts → r1.point < r2.point)
    ∧ (∀ k : Nat, (∃ r ∈ agg, r.user = u ∧ r.point = k)
        ↔ 1 ≤ k
          ∧ k ≤ (dedupFirst (agg.map tripleOf)).countP (fun t => t.1 == u))
    ∧ (∀ entries', List.Perm entries' entries →
        aggregate_folder entries' = .ok agg) := by
  have hindep : ∀ entries', List.Perm entries' entries →
      aggregate_folder entries' = aggregate_folder entries := by
    intro entries' hperm
    unfold aggregate_folder
    have hfil : List.Perm (entries'.filter (fun e => csvName e.name))
        (entries.filter (fun e => csvName e.name)) := hperm.filter _
    have hsorted_eq : insSort nameLeB (entries'.filter (fun e => csvName e.name))
        = insSort nameLeB (entries.filter (fun e => csvName e.name)) := by
      apply sorted_perm_nodup_eq nameLeB
      · exact sorted_insSort _ nameLe_total nameLe_trans _
      · exact sorted_insSort _ nameLe_total nameLe_trans _
      · exact (insSort_perm _ _).trans (hfil.trans (insSort_perm _ _).symm)
      · intro a ha b hb hle1 hle2
        have hnames : a.name = b.name :=
          strKey_inj _ _ (natListLe_antisymm _ _ hle1 hle2)
        have ha' : a ∈ entries :=
          hperm.subset (List.mem_of_mem_filter ((mem_insSort _ _ _).mp ha))
        have hb' : b ∈ entries :=
          hperm.subset (List.mem_of_mem_filter ((mem_insSort _ _ _).mp hb))
        exact List.inj_on_of_nodup_map hnd ha' hb' hnames
    rw [hsorted_eq]
  obtain ⟨raw, hpf, hagg⟩ : ∃ raw,
      processFiles (insSort nameLeB (entries.filter (fun e => csvName e.name)))
          = .ok raw
        ∧ pointAssign raw = agg := by
    revert hok
    unfold aggregate_folder
    cases hpf : processFiles (insSort nameLeB
        (entries.filter (fun e => csvName e.name))) with
    | error err => intro hok; exact Except.noConfusion hok
    | ok raw => intro hok; exact ⟨raw, rfl, Except.ok.inj hok⟩
  subst hagg
  refine ⟨?_, ?_, ?_, fun entries' hperm => (hindep entries' hperm).trans hok⟩
    <;> clear hok hindep hpf
  all_goals by_cases hempty : raw.isEmpty = true
  -- the three conjuncts in the empty case
  case pos =>
    rw [List.isEmpty_iff.mp hempty]
    intro r1 hr1
    exact absurd hr1 (List.not_mem_nil r1)
  case pos =>
    rw [List.isEmpty_iff.mp hempty]
    intro r1 hr1
    exact absurd hr1 (List.not_mem_nil r1)
  case pos =>
    rw [List.isEmpty_iff.mp hempty]
    intro k
    constructor
    · rintro ⟨r, hr, -⟩
      exact absurd hr (List.not_mem_nil r)
    · rintro ⟨h1, h2⟩
      have hz : (dedupFirst ((pointAssign ([] : List AggRow)).map tripleOf)).countP
          (fun t => t.1 == u) = 0 := rfl
      rw [hz] at h2
      omega
  -- shared facts for the three conjuncts in the non-empty case
  all_goals
    have hpa : pointAssign raw = (dfAllOf raw).map
        (fun r => { r with point := lookupPoint (pointedOf raw) (tripleOf r) }) := by
      unfold pointAssign
      rw [if_neg hempty]
  all_goals
    have hpoint : ∀ r ∈ pointAssign raw,
        r.point = lookupPoint (cumPoints [] (pointMapOf raw)) (tripleOf r) := by
      intro r hr
      rw [hpa] at hr
      obtain ⟨r0, -, rfl⟩ := List.mem_map.mp hr
      rfl
  all_goals
    have htrip_mem : ∀ r ∈ pointAssign raw, tripleOf r ∈ pointMapOf raw := by
      intro r hr
      rw [hpa] at hr
      obtain ⟨r0, hr0, rfl⟩ := List.mem_map.mp hr
      show tripleOf r0 ∈ pointMapOf raw
      exact (mem_pointMapOf raw _).mpr (List.mem_map_of_mem tripleOf hr0)
  case neg =>
    -- conjunct 1: the point is a function of the (user, timestamp, file) triple
    intro r1 hr1 r2 hr2 hu1 hu2 hts hfile
    rw [hpoint r1 hr1, hpoint r2 hr2]
    have heq : tripleOf r1 = tripleOf r2 := by
      unfold tripleOf
      rw [hu1, hu2, hts, hfile]
    rw [heq]
  case neg =>
    -- conjunct 2: a strictly earlier timestamp gets a strictly smaller point
    intro r1 hr1 r2 hr2 hu1 hu2 hlt
    rw [hpoint r1 hr1, hpoint r2 hr2]
    exact points_ordered_aux u (pointMapOf raw) (nodup_pointMapOf raw)
      (sorted_pointMapOf raw) _ _ (htrip_mem r1 hr1) (htrip_mem r2 hr2)
      hu1 hu2 hlt
  case neg =>
    -- conjunct 3: the points of the user's rows are exactly 1..N
    intro k
    have hN : (dedupFirst ((pointAssign raw).map tripleOf)).countP
        (fun t => t.1 == u) = (pointMapOf raw).countP (fun t => t.1 == u) := by
      have hmapeq : (pointAssign raw).map tripleOf = (dfAllOf raw).map tripleOf := by
        rw [hpa, List.map_map]
        rfl
      rw [hmapeq]
      unfold pointMapOf
      exact ((insSort_perm tripLeB _).countP_eq _).symm
    have hiff : (∃ r ∈ pointAssign raw, r.user = u ∧ r.point = k)
        ↔ ∃ t ∈ pointMapOf raw, t.1 = u
            ∧ lookupPoint (cumPoints [] (pointMapOf raw)) t = k := by
      constructor
      · rintro ⟨r, hr, hu', hk⟩
        exact ⟨tripleOf r, htrip_mem r hr, hu', by rw [← hpoint r hr]; exact hk⟩
      · rintro ⟨t, ht, hu', hk⟩
        obtain ⟨r0, hr0, hr0t⟩ := List.mem_map.mp ((mem_pointMapOf raw t).mp ht)
        refine ⟨{ r0 with point := lookupPoint (pointedOf raw) (tripleOf r0) },
          ?_, ?_, ?_⟩
        · rw [hpa]
          exact List.mem_map_of_mem _ hr0
        · show r0.user = u
          have hfst : (tripleOf r0).1 = u := by rw [hr0t]; exact hu'
          exact hfst
        · show lookupPoint (pointedOf raw) (tripleOf r0) = k
          rw [hr0t]
          exact hk
    rw [hiff, hN]
    exact points_range_aux u (pointMapOf raw) (nodup_pointMapOf raw) k

/-- C1 witness: the two-file single-user demo directory, whose listing
order disagrees with timestamp order, satisfies the theorem's hypotheses. -/
theorem point_numbering_dense_ordered_witness :
    (demoPointsDir.map DirEntry.name).Nodup
    ∧ ∃ agg, aggregate_folder demoPointsDir = Except.ok agg
      ∧ ((∀ r1 ∈ agg, ∀ r2 ∈ agg, r1.user = "민수" → r2.user = "민수" →
            r1.ts = r2.ts → r1.file = r2.file → r1.point = r2.point)
        ∧ (∀ r1 ∈ agg, ∀ r2 ∈ agg, r1.user = "민수" → r2.user = "민수" →
            dtKey r1.ts < dtKey r2.ts → r1.point < r2.point)
        ∧ (∀ k : Nat, (∃ r ∈ agg, r.user = "민수" ∧ r.point = k)
            ↔ 1 ≤ k ∧ k ≤ (dedupFirst (agg.map tripleOf)).countP
                (fun t => t.1 == "민수"))
        ∧ (∀ entries', List.Perm entries' demoPointsDir →
            aggregate_folder entries' = Except.ok agg)) :=
  ⟨by decide, _, rfl,
    point_numbering_dense_ordered demoPointsDir (by decide) _ rfl "민수"⟩

/-- C6: a file that passes filename parsing, decodes, and has both
required columns contributes exactly one aggregate row per canonical
category — one row exists for each of the 4 categories, rows of that file
are unique per category, and every row of that file carries the parsed
user/timestamp, a canonical category, and Low/High counts over exactly the
rows whose normalized category matches (so unmatched raw categories count
nowhere and empty categories get 0). -/
theorem four_category_rows_per_file (entries : List DirEntry)
    (hnd : (entries.map DirEntry.name).Nodup)
    (e : DirEntry) (he : e ∈ entries)
    (u : String) (ts : DateTime)
    (hp : parse_user_and_timestamp_from_filename e.name = some (u, ts))
    (df : CsvFile) (hrd : read_csv_with_encoding e.read = .ok df)
    (ti pot : Nat)
    (hti : findCol df.cols "tmssr" = some ti)
    (hpot : findCol df.cols "potential" = some pot)
    (agg : List AggRow) (hok : aggregate_folder entries = .ok agg) :
    (∀ cat ∈ CATEGORIES, ∃ r ∈ agg, r.file = e.name ∧ r.category = cat)
    ∧ (∀ r1 ∈ agg, ∀ r2 ∈ agg, r1.file = e.name → r2.file = e.name →
        r1.category = r2.category → r1 = r2)
    ∧ (∀ r ∈ agg, r.file = e.name →
        r.user = u ∧ r.ts = ts ∧ r.category ∈ CATEGORIES
        ∧ r.low = (df.cells.filter
            (fun row => normCategory (cellAt row ti) == some r.category)).countP
              (fun row => normKey (cellAt row pot) == "low")
        ∧ r.high = (df.cells.filter
            (fun row => normCategory (cellAt row ti) == some r.category)).countP
              (fun row => normKey (cellAt row pot) == "high")) := by
  obtain ⟨raw, hpf, hagg⟩ : ∃ raw,
      processFiles (insSort nameLeB (entries.filter (fun x => csvName x.name)))
          = .ok raw
        ∧ pointAssign raw = agg := by
    revert hok
    unfold aggregate_folder
    cases hpf : processFiles (insSort nameLeB
        (entries.filter (fun x => csvName x.name))) with
    | error err => intro hok; exact Except.noConfusion hok
    | ok raw => intro hok; exact ⟨raw, rfl, Except.ok.inj hok⟩
  subst hagg
  have hcsv : csvName e.name = true := csvName_of_parse e.name (u, ts) hp
  have hesort : e ∈ insSort nameLeB (entries.filter (fun x => csvName x.name)) :=
    (mem_insSort _ _ _).mpr (List.mem_filter.mpr ⟨he, hcsv⟩)
  have hprov := processFiles_ok_mem _ raw hpf
  have hfr : fileRows u ts e.name df
      = CATEGORIES.map (catRow u ts e.name df ti pot) := by
    unfold fileRows
    rw [hti, hpot]
  have hmemraw : ∀ cat ∈ CATEGORIES, catRow u ts e.name df ti pot cat ∈ raw := by
    intro cat hc
    exact (hprov _).mpr ⟨e, hesort, u, ts, df, hp, hrd,
      by rw [hfr]; exact List.mem_map_of_mem _ hc⟩
  have hraw_ne : ¬ raw.isEmpty = true := by
    intro hemp
    have hm := hmemraw "Eliciting" (by decide)
    rw [List.isEmpty_iff.mp hemp] at hm
    exact absurd hm (List.not_mem_nil _)
  have hpa : pointAssign raw = (dfAllOf raw).map
      (fun r => { r with point := lookupPoint (pointedOf raw) (tripleOf r) }) := by
    unfold pointAssign
    rw [if_neg hraw_ne]
  have hdfmem : ∀ r : AggRow, r ∈ dfAllOf raw ↔ r ∈ raw := by
    intro r
    unfold dfAllOf
    exact (insSort_perm _ _).mem_iff
  have hresolve : ∀ r0 ∈ raw, r0.file = e.name →
      ∃ cat ∈ CATEGORIES, r0 = catRow u ts e.name df ti pot cat := by
    intro r0 hr0 hf0
    obtain ⟨e1, he1, u1, ts1, df1, hp1, hrd1, hr01⟩ := (hprov r0).mp hr0
    cases hti1 : findCol df1.cols "tmssr" with
    | none =>
      unfold fileRows at hr01
      rw [hti1] at hr01
      simp at hr01
    | some ti1 =>
      cases hpot1 : findCol df1.cols "potential" with
      | none =>
        unfold fileRows at hr01
        rw [hti1, hpot1] at hr01
        simp at hr01
      | some pot1 =>
        have hr01' : r0 ∈ CATEGORIES.map (catRow u1 ts1 e1.name df1 ti1 pot1) := by
          unfold fileRows at hr01
          rw [hti1, hpot1] at hr01
          exact hr01
        obtain ⟨cat1, hc1, hcat1⟩ := List.mem_map.mp hr01'
        have hf1 : r0.file = e1.name := by rw [← hcat1]; rfl
        have hee : e1 = e :=
          List.inj_on_of_nodup_map hnd
            (List.mem_of_mem_filter ((mem_insSort _ _ _).mp he1)) he
            (by rw [← hf1]; exact hf0)
        subst hee
        rw [hp] at hp1
        injection hp1 with hp1'
        cases hp1'
        rw [hrd] at hrd1
        injection hrd1 with hdf
        cases hdf
        rw [hti] at hti1
        injection hti1 with hti'
        cases hti'
        rw [hpot] at hpot1
        injection hpot1 with hpot'
        cases hpot'
        exact ⟨cat1, hc1, hcat1.symm⟩
  refine ⟨?_, ?_, ?_⟩
  · intro cat hc
    refine ⟨(fun r => { r with point := lookupPoint (pointedOf raw) (tripleOf r) })
      (catRow u ts e.name df ti pot cat), ?_, rfl, rfl⟩
    rw [hpa]
    exact List.mem_map_of_mem _ ((hdfmem _).mpr (hmemraw cat hc))
  · intro r1 hr1 r2 hr2 hf1 hf2 hcat
    rw [hpa] at hr1 hr2
    obtain ⟨r01, hr01, rfl⟩ := List.mem_map.mp hr1
    obtain ⟨r02, hr02, rfl⟩ := List.mem_map.mp hr2
    have hf01 : r01.file = e.name := hf1
    have hf02 : r02.file = e.name := hf2
    obtain ⟨cat1, hc1, hcat01⟩ := hresolve r01 ((hdfmem r01).mp hr01) hf01
    obtain ⟨cat2, hc2, hcat02⟩ := hresolve r02 ((hdfmem r02).mp hr02) hf02
    have hcats : cat1 = cat2 := by
      have h1 : r01.category = cat1 := by rw [hcat01]; rfl
      have h2 : r02.category = cat2 := by rw [hcat02]; rfl
      have hc12 : r01.category = r02.category := hcat
      rw [← h1, ← h2]
      exact hc12
    subst hcats
    rw [hcat01, hcat02]
  · intro r hr hf
    rw [hpa] at hr
    obtain ⟨r0, hr0, rfl⟩ := List.mem_map.mp hr
    have hf0 : r0.file = e.name := hf
    obtain ⟨cat, hc, hcat0⟩ := hresolve r0 ((hdfmem r0).mp hr0) hf0
    subst hcat0
    refine ⟨rfl, rfl, hc, ?_, ?_⟩
    · show (catRow u ts e.name df ti pot cat).low
        = (df.cells.filter
            (fun row => normCategory (cellAt row ti) == some cat)).countP
            (fun row => normKey (cellAt row pot) == "low")
      exact catRow_low u ts e.name df ti pot cat
    · show (catRow u ts e.name df ti pot cat).high
        = (df.cells.filter
            (fun row => normCategory (cellAt row ti) == some cat)).countP
            (fun row => normKey (cellAt row pot) == "high")
      exact catRow_high u ts e.name df ti pot cat

/-- C3: for every tuple satisfying the filename grammar — a user id
without the underscore separator (or a path separator), a 4-digit year,
in-range month/day for a valid calendar date, a 12-hour hour `1..12` and
2-digit minute/second — building the filename
`<user>_<YYYY>. <M>. <D>. <오전|오후> <H>-<MM>-<SS>.csv` and parsing it
returns exactly the same user id and the 24-hour-converted timestamp. -/
theorem filename_roundtrip (user : String) (y M D : Nat) (ap : Ampm)
    (h12 mi s : Nat)
    (hu1 : '_' ∉ user.data) (hu2 : '/' ∉ user.data)
    (hy : 1000 ≤ y ∧ y ≤ 9999)
    (hM : 1 ≤ M ∧ M ≤ 12) (hD : 1 ≤ D ∧ D ≤ daysInMonth y M)
    (hh : 1 ≤ h12 ∧ h12 ≤ 12) (hmi : mi ≤ 59) (hs : s ≤ 59) :
    parse_user_and_timestamp_from_filename (mkFilename user y M D ap h12 mi s)
      = some (user, ⟨y, M, D, koreanAmPmHour ap h12, mi, s⟩) := by
  have hdim : daysInMonth y M ≤ 31 := by
    unfold daysInMonth
    split_ifs <;> omega
  have hD99 : 1 ≤ D ∧ D ≤ 99 := by omega
  have hassoc : (mkFilename user y M D ap h12 mi s).data
      = (user.data ++ '_' :: timestampChars y M D ap h12 mi s)
        ++ ['.', 'c', 's', 'v'] := by
    show user.data ++ '_' :: (timestampChars y M D ap h12 mi s
      ++ ['.', 'c', 's', 'v']) = _
    simp [List.append_assoc]
  have hnoslash : ∀ c ∈ (mkFilename user y M D ap h12 mi s).data, c ≠ '/' := by
    rw [hassoc]
    refine List.forall_mem_append.mpr ⟨?_, by decide⟩
    refine List.forall_mem_append.mpr ⟨?_, ?_⟩
    · intro c hc h
      exact hu2 (h ▸ hc)
    · exact List.forall_mem_cons.mpr
        ⟨by decide, timestampChars_ne_slash y M D ap h12 mi s⟩
  have hbase : basename (mkFilename user y M D ap h12 mi s)
      = mkFilename user y M D ap h12 mi s :=
    basename_eq_self _ hnoslash
  have hends : endsWithCsvLower (mkFilename user y M D ap h12 mi s).data
      = true := by
    rw [hassoc]
    exact endsWithCsv_construct _
  have hstrip : stripLastCsv (mkFilename user y M D ap h12 mi s).data
      = user.data ++ '_' :: timestampChars y M D ap h12 mi s := by
    rw [hassoc]
    exact stripLastCsv_append _
  have hhour : koreanAmPmHour ap h12 ≤ 23 := by
    cases ap <;> by_cases h : h12 = 12 <;> simp [koreanAmPmHour, h] <;> omega
  have hdt : mkDatetime? y M D (koreanAmPmHour ap h12) mi s
      = some ⟨y, M, D, koreanAmPmHour ap h12, mi, s⟩ := by
    unfold mkDatetime?
    rw [if_pos ⟨by omega, by omega, by omega, by omega, by omega, hD.2,
      hhour, by omega, by omega⟩]
  unfold parse_user_and_timestamp_from_filename
  simp only [hbase, hends, if_true, hstrip,
    splitFirstUnderscore_append user.data hu1,
    stripList_timestampChars y M D ap h12 mi s (by omega : y ≠ 0),
    matchTimestamp_mk y M D ap h12 mi s hy ⟨hM.1, by omega⟩ hD99
      ⟨hh.1, by omega⟩ (by omega) (by omega),
    hdt]

/-- C3 witness: the spec's own example tuple — the theorem applied to
`("영준정", 2025, 12, 4, 오후, 11, 50, 53)` recovers the user and
`2025-12-04 23:50:53`. -/
theorem filename_roundtrip_witness :
    mkFilename "영준정" 2025 12 4 Ampm.pm 11 50 53
        = "영준정_2025. 12. 4. 오후 11-50-53.csv"
    ∧ parse_user_and_timestamp_from_filename
        (mkFilename "영준정" 2025 12 4 Ampm.pm 11 50 53)
      = some ("영준정", ⟨2025, 12, 4, 23, 50, 53⟩) :=
  ⟨by
    have h2025 : Nat.digits 10 2025 = [5, 2, 0, 2] := by
      simp +decide [Nat.digits_def']
    have h12 : Nat.digits 10 12 = [2, 1] := by
      simp +decide [Nat.digits_def']
    have h4 : Nat.digits 10 4 = [4] := by
      simp +decide [Nat.digits_def']
    have h11 : Nat.digits 10 11 = [1, 1] := by
      simp +decide [Nat.digits_def']
    simp only [mkFilename, timestampChars, natChars, h2025, h12, h4, h11]
    decide,
    filename_roundtrip "영준정" 2025 12 4 Ampm.pm 11 50 53
      (by decide) (by decide) (by decide) (by decide) (by decide)
      (by decide) (by decide) (by decide)⟩

/-- C6 witness: the theorem applied to the first file of the demo
directory, whose table has both columns at indices 0 and 1. -/
theorem four_category_rows_per_file_witness :
    ∃ agg, aggregate_folder demoPointsDir = Except.ok agg
      ∧ ((∀ cat ∈ CATEGORIES, ∃ r ∈ agg,
            r.file = "민수_2025. 12. 4. 오후 1-00-00.csv" ∧ r.category = cat)
        ∧ (∀ r1 ∈ agg, ∀ r2 ∈ agg,
            r1.file = "민수_2025. 12. 4. 오후 1-00-00.csv" →
            r2.file = "민수_2025. 12. 4. 오후 1-00-00.csv" →
            r1.category = r2.category → r1 = r2)
        ∧ (∀ r ∈ agg, r.file = "민수_2025. 12. 4. 오후 1-00-00.csv" →
            r.user = "민수" ∧ r.ts = ⟨2025, 12, 4, 13, 0, 0⟩
            ∧ r.category ∈ CATEGORIES
            ∧ r.low = (demoTable.cells.filter
                (fun row => normCategory (cellAt row 0) == some r.category)).countP
                  (fun row => normKey (cellAt row 1) == "low")
            ∧ r.high = (demoTable.cells.filter
                (fun row => normCategory (cellAt row 0) == some r.category)).countP
                  (fun row => normKey (cellAt row 1) == "high"))) :=
  ⟨_, rfl, four_category_rows_per_file demoPointsDir (by decide)
      ⟨"민수_2025. 12. 4. 오후 1-00-00.csv", demoGoodFile⟩ (List.Mem.head _)
      "민수" ⟨2025, 12, 4, 13, 0, 0⟩ rfl demoTable rfl 0 1 rfl rfl _ rfl⟩

end TQC
